import Mathlib

/-!
# The unrolled doubly linked list of `list.c`

A shallow embedding of `src/list.c`: the list handle, its nodes and their
links live in an explicit node memory, every function of the file is a
function on that state in the `Except Fault` monad, and the properties of
the container are theorems about these functions.

Modelling conventions
* `void *` values are `Ptr α`; `NULL` is `Ptr.null`, a pointer to a caller's
  element is `Ptr.item a`, the address of a node's `data` array is
  `Ptr.buffer a`, and the indeterminate content of memory that was never
  written is `Ptr.junk`.
* A `NODE *` is `Option Addr` (`none` is `NULL`); an address is an index of
  the node memory `LIST.mem`, `malloc` appends a cell, `free` empties one.
* `int` is `Int`; `%` is C's truncating remainder `Int.tmod`. The counters are
  taken without wrap-around: a list of `2^31` elements is outside the model.
* A struct field that the code never assigned is `none`; reading it is the
  fault `Fault.uninit`. The `data` array of a node is stored in the node
  (`malloc(sizeof(void*) * 8)` gives eight `Ptr.junk` slots).
* `assert` failing is `Fault.assertion`; allocation never fails.
* The two loops (`getItem`, `setItem`) run on fuel; each step moves to the next
  node, so one more than the number of memory cells is enough on every chain
  without a cycle, and running out is the fault `Fault.fuel`.
-/

namespace UList

/-- An address of a node in the node memory. -/
abbrev Addr := Nat

/-- The values a `void *` takes in this program. -/
inductive Ptr (α : Type) where
  | null : Ptr α
  | item : α → Ptr α
  | buffer : Addr → Ptr α
  | junk : Ptr α
  deriving DecidableEq, Repr

/-- The test `p == NULL`. -/
def Ptr.isNull {α : Type} : Ptr α → Bool
  | Ptr.null => true
  | _ => false

/-- The ways a call can go wrong. -/
inductive Fault where
  | assertion
  | nullDeref
  | wild
  | uninit
  | outOfBounds
  | divZero
  | fuel
  deriving DecidableEq, Repr

/-- The record `struct node` (lines 19-26). -/
structure NODE (α : Type) where
  data : Option (List (Ptr α))
  next : Option Addr
  prev : Option Addr
  first : Option Int
  count : Option Int
  length : Option Int
  deriving DecidableEq, Repr

/-- The record `struct list` (lines 29-34) together with the node memory its
pointers refer to. -/
structure LIST (α : Type) where
  count : Int
  numNodes : Int
  head : Option Addr
  tail : Option Addr
  mem : List (Option (NODE α))
  deriving DecidableEq, Repr

variable {α : Type}

/-- Read of a field or variable that may never have been assigned. -/
def rd {β : Type} : Option β → Except Fault β
  | some b => .ok b
  | none => .error .uninit

/-- Dereference of a node pointer: `p->...`. -/
def deref (mem : List (Option (NODE α))) : Option Addr → Except Fault (Addr × NODE α)
  | none => .error .nullDeref
  | some a =>
    match mem[a]? with
    | some (some n) => .ok (a, n)
    | _ => .error .wild

/-- C's `a % b` on `int`. -/
def cmod (a b : Int) : Except Fault Int :=
  if b = 0 then .error .divZero else .ok (Int.tmod a b)

/-- The read `data[idx]`. -/
def readSlot (d : List (Ptr α)) (idx : Int) : Except Fault (Ptr α) :=
  if 0 ≤ idx ∧ idx < d.length then .ok (d.getD idx.toNat Ptr.junk) else .error .outOfBounds

/-- The write `data[idx] = item`. -/
def writeSlot (d : List (Ptr α)) (idx : Int) (item : Ptr α) : Except Fault (List (Ptr α)) :=
  if 0 ≤ idx ∧ idx < d.length then .ok (d.set idx.toNat item) else .error .outOfBounds

/-- The array `malloc(sizeof(void*) * temp->length)` with `temp->length == 8`. -/
def freshData : List (Ptr α) := List.replicate 8 Ptr.junk

/-- The function `createList` (lines 38-52): the counters are zeroed and head and tail
point to one allocated node of which only `next` and `prev` are assigned. -/
def createList : LIST α :=
  { count := 0, numNodes := 0, head := some 0, tail := some 0,
    mem := [some { data := none, next := none, prev := none,
                   first := none, count := none, length := none }] }

/-- The function `numItems` (lines 71-74). -/
def numItems (lp : LIST α) : Int := lp.count

/-- The test `lp->numNodes == 0 || lp->b->count == lp->b->length` of lines 80 and
120, with `b` the head or the tail; `||` does not evaluate its right side when
the left side holds. -/
def needsNode (lp : LIST α) (b : Option Addr) : Except Fault Bool :=
  if lp.numNodes = 0 then .ok true
  else do
    let (_, n) ← deref lp.mem b
    let c ← rd n.count
    let l ← rd n.length
    pure (decide (c = l))

/-- Lines 109-112 and 150-153: the item is written at
`(first + count) % length` of the boundary node `b`, and both counts grow. -/
def putAtEnd (lp : LIST α) (b : Option Addr) (item : Ptr α) : Except Fault (LIST α) := do
  let (a, n) ← deref lp.mem b
  let f ← rd n.first
  let c ← rd n.count
  let l ← rd n.length
  let idx ← cmod (f + c) l
  let d ← rd n.data
  let d ← writeSlot d idx item
  pure { lp with
    mem := lp.mem.set a (some { n with data := some d, count := some (c + 1) }),
    count := lp.count + 1 }

/-- Lines 81-106 of `addFirst`: a node is allocated, the item is written to its
slot `first`, and the node is linked before the head. -/
def growFirst (lp : LIST α) (item : Ptr α) : Except Fault (LIST α) := do
  let t := lp.mem.length
  let d ← writeSlot freshData 0 item
  let temp : NODE α :=
    { first := some 0, length := some 8, count := some 0, data := some d,
      prev := none, next := none }
  let lp := { lp with mem := lp.mem ++ [some temp] }
  let lp ←
    if lp.numNodes = 0 then
      pure { lp with head := some t, tail := some t }
    else do
      let (h, hn) ← deref lp.mem lp.head
      let c ← rd hn.count
      let l ← rd hn.length
      if c = l then
        let mem := lp.mem.set h (some { hn with prev := some t })
        let (_, tn) ← deref mem (some t)
        let mem := mem.set t (some { tn with next := some h })
        pure { lp with mem := mem, head := some t }
      else pure lp
  pure { lp with numNodes := lp.numNodes + 1 }

/-- The function `addFirst` (lines 78-113). -/
def addFirst (lp : LIST α) (item : Ptr α) : Except Fault (LIST α) :=
  if item.isNull then .error .assertion
  else do
    let grow ← needsNode lp lp.head
    let lp ← if grow then growFirst lp item else pure lp
    putAtEnd lp lp.head item

/-- Lines 121-147 of `addLast`: a node is allocated and linked after the tail. -/
def growLast (lp : LIST α) : Except Fault (LIST α) := do
  let t := lp.mem.length
  let temp : NODE α :=
    { length := some 8, first := some 0, data := some freshData, count := some 0,
      prev := none, next := none }
  let lp := { lp with mem := lp.mem ++ [some temp] }
  let lp ←
    if lp.numNodes = 0 then
      pure { lp with head := some t, tail := some t }
    else do
      let (e, en) ← deref lp.mem lp.tail
      let c ← rd en.count
      let l ← rd en.length
      if c = l then
        let (_, tn) ← deref lp.mem (some t)
        let mem := lp.mem.set t (some { tn with prev := some e })
        let (_, en) ← deref mem (some e)
        let mem := mem.set e (some { en with next := some t })
        pure { lp with mem := mem, tail := some t }
      else pure lp
  pure { lp with numNodes := lp.numNodes + 1 }

/-- The function `addLast` (lines 117-154). -/
def addLast (lp : LIST α) (item : Ptr α) : Except Fault (LIST α) :=
  if item.isNull then .error .assertion
  else do
    let grow ← needsNode lp lp.tail
    let lp ← if grow then growLast lp else pure lp
    putAtEnd lp lp.tail item

/-- Lines 162-168 of `removeFirst`: an empty head node is unlinked and freed. -/
def retireFirst (lp : LIST α) : Except Fault (LIST α) := do
  let (h, hn) ← deref lp.mem lp.head
  let c ← rd hn.count
  if c = 0 then
    let (x, xn) ← deref lp.mem hn.next
    let mem := lp.mem.set x (some { xn with prev := none })
    let mem := mem.set h none
    pure { lp with head := hn.next, mem := mem, numNodes := lp.numNodes - 1 }
  else pure lp

/-- Lines 170-175 of `removeFirst`: the slot `first` of the head node is read and
cleared, `first` advances and both counts shrink. -/
def takeFirst (lp : LIST α) : Except Fault (Ptr α × LIST α) := do
  let (h, hn) ← deref lp.mem lp.head
  let d ← rd hn.data
  let f ← rd hn.first
  let dataDel ← readSlot d f
  let d ← writeSlot d f Ptr.null
  let l ← rd hn.length
  let f2 ← cmod (f + 1) l
  let c ← rd hn.count
  pure (dataDel, { lp with
    mem := lp.mem.set h
      (some { hn with data := some d, first := some f2, count := some (c - 1) }),
    count := lp.count - 1 })

/-- The function `removeFirst` (lines 158-176). -/
def removeFirst (lp : LIST α) : Except Fault (Ptr α × LIST α) :=
  if ¬ 0 < lp.count then .error .assertion
  else do
    let lp ← retireFirst lp
    takeFirst lp

/-- Lines 185-191 of `removeLast`: an empty tail node is unlinked and freed. -/
def retireLast (lp : LIST α) : Except Fault (LIST α) := do
  let (e, en) ← deref lp.mem lp.tail
  let c ← rd en.count
  if c = 0 then
    let (x, xn) ← deref lp.mem en.prev
    let mem := lp.mem.set x (some { xn with next := none })
    let mem := mem.set e none
    pure { lp with tail := en.prev, mem := mem, numNodes := lp.numNodes - 1 }
  else pure lp

/-- Lines 193-196 of `removeLast`: the slot `(first + count - 1) % length` of the
tail node is read and both counts shrink. -/
def takeLast (lp : LIST α) : Except Fault (Ptr α × LIST α) := do
  let (e, en) ← deref lp.mem lp.tail
  let f ← rd en.first
  let c ← rd en.count
  let l ← rd en.length
  let idx ← cmod (f + c - 1) l
  let d ← rd en.data
  let dataDel ← readSlot d idx
  pure (dataDel, { lp with
    mem := lp.mem.set e (some { en with count := some (c - 1) }),
    count := lp.count - 1 })

/-- The function `removeLast` (lines 180-198). -/
def removeLast (lp : LIST α) : Except Fault (Ptr α × LIST α) :=
  if ¬ 0 < lp.count then .error .assertion
  else do
    let lp ← retireLast lp
    takeLast lp

/-- The function `getFirst` (lines 202-205): `return lp->head->next->data;`. -/
def getFirst (lp : LIST α) : Except Fault (Ptr α) := do
  let (_, hn) ← deref lp.mem lp.head
  let (x, xn) ← deref lp.mem hn.next
  let _ ← rd xn.data
  pure (Ptr.buffer x)

/-- The function `getLast` (lines 209-212): `return lp->tail->data;`. -/
def getLast (lp : LIST α) : Except Fault (Ptr α) := do
  let (e, en) ← deref lp.mem lp.tail
  let _ ← rd en.data
  pure (Ptr.buffer e)

/-- The loop of `getItem` (lines 221-232). The state is `i`, `index` and `temp`;
the result is the node the loop stopped at and `x`, which is assigned only
by the `break` branch. The increment `i += temp->count` runs after
`temp = temp->next` and so reads the count of the next node. -/
def getItemLoop (lp : LIST α) : Nat → Int → Int → Option Addr →
    Except Fault (Option Addr × Option Int)
  | 0, _, _, _ => .error .fuel
  | fuel + 1, i, index, temp =>
    if i < lp.count then do
      let (_, n) ← deref lp.mem temp
      let c ← rd n.count
      if index < c then pure (temp, some index)
      else do
        let (_, n2) ← deref lp.mem n.next
        let c2 ← rd n2.count
        getItemLoop lp fuel (i + c2) (index - c) n.next
    else pure (temp, none)

/-- The function `getItem` (lines 216-236). The loop visits each node at most once on
a chain without a cycle, so one step more than the number of cells suffices. -/
def getItem (lp : LIST α) (index : Int) : Except Fault (Ptr α) :=
  if ¬ (0 ≤ index ∧ index < lp.count) then .error .assertion
  else do
    let (temp, x) ← getItemLoop lp (lp.mem.length + 1) 0 index lp.head
    let (_, n) ← deref lp.mem temp
    let f ← rd n.first
    let x ← rd x
    let l ← rd n.length
    let idx ← cmod (f + x) l
    let d ← rd n.data
    readSlot d idx

/-- The loop of `setItem` (lines 246-254). -/
def setItemLoop (lp : LIST α) (item : Ptr α) : Nat → Int → Option Addr → Except Fault (LIST α)
  | 0, _, _ => .error .fuel
  | _ + 1, _, none => pure lp
  | fuel + 1, counter, some a => do
    let (_, n) ← deref lp.mem (some a)
    let c ← rd n.count
    if counter - c < 0 then
      let f ← rd n.first
      let l ← rd n.length
      let idx ← cmod (f + counter) l
      let d ← rd n.data
      let d ← writeSlot d idx item
      pure { lp with mem := lp.mem.set a (some { n with data := some d }) }
    else setItemLoop lp item fuel (counter - c) n.next

/-- The function `setItem` (lines 240-255); the assertion does not mention `index`. -/
def setItem (lp : LIST α) (index : Int) (item : Ptr α) : Except Fault (LIST α) :=
  if item.isNull then .error .assertion
  else setItemLoop lp item (lp.mem.length + 1) index lp.head

/-! ## Observation of a state -/

/-- The nodes met from `p` along `next`, at most `fuel` of them. -/
def chainFrom (mem : List (Option (NODE α))) : Nat → Option Addr → List (Addr × NODE α)
  | 0, _ => []
  | _ + 1, none => []
  | fuel + 1, some a =>
    match mem[a]? with
    | some (some n) => (a, n) :: chainFrom mem fuel n.next
    | _ => []

/-- The chain of nodes from the head to the tail. -/
def nodes (lp : LIST α) : List (Addr × NODE α) :=
  chainFrom lp.mem lp.mem.length lp.head

/-- The logical contents of a node: the slots `(first + i) mod length` for
`0 ≤ i < count`. A node whose fields were never assigned holds nothing. -/
def contents (n : NODE α) : List (Ptr α) :=
  match n.first, n.count, n.length, n.data with
  | some f, some c, some l, some d =>
    (List.range c.toNat).map (fun i : Nat => d.getD ((f + (i : Int)) % l).toNat Ptr.junk)
  | _, _, _, _ => []

/-- The abstraction `abs`: the head-to-tail concatenation of the logical contents
of the nodes. -/
def abs (lp : LIST α) : List (Ptr α) :=
  (nodes lp).flatMap (fun x => contents x.2)

/-- The position of every node: its address, `first`, `count`, `length` and links. -/
def layout (lp : LIST α) :
    List (Addr × Option Int × Option Int × Option Int × Option Addr × Option Addr) :=
  (nodes lp).map (fun x => (x.1, x.2.first, x.2.count, x.2.length, x.2.next, x.2.prev))

/-- The node a node pointer refers to, when it refers to one. -/
def nodeAt (lp : LIST α) : Option Addr → Option (NODE α)
  | none => none
  | some a =>
    match lp.mem[a]? with
    | some (some n) => some n
    | _ => none

/-- The data-model invariant: the count of the list is the sum of the counts of
the nodes linked from the head (a count never assigned adds nothing), every
such node has length 8, a count in `[0, 8]` and a first slot in `[0, 8)`,
and `numNodes` is their number. -/
def DataInv (lp : LIST α) : Prop :=
  lp.count = ((nodes lp).map (fun x => x.2.count.getD 0)).sum ∧
  (∀ x ∈ nodes lp, x.2.length = some 8 ∧
    ∃ c f : Int, x.2.count = some c ∧ 0 ≤ c ∧ c ≤ 8 ∧ x.2.first = some f ∧ 0 ≤ f ∧ f < 8) ∧
  lp.numNodes = (nodes lp).length

/-- The node at `p` is full: its `count` equals its `length`. -/
def fullAt (lp : LIST α) (p : Option Addr) : Prop :=
  ∃ n c, nodeAt lp p = some n ∧ n.count = some c ∧ n.length = some c

/-- The effect of a push that takes `lp` to `lp2`, at the end whose boundary pointer
is `b` before and `b2` after the call, the pointer of the other end being
`o` before and `o2` after; `inward` is the link of a node towards the rest of
the chain and `outward` the link away from it. A node is added exactly when
there was none or the boundary node was full; the added node is new, starts
at slot 0, holds the item alone, ends the chain and is linked with the old
boundary node in both directions; otherwise only the boundary node changes,
and only by one more element. -/
def PushEffect (lp lp2 : LIST α) (item : Ptr α) (b b2 o o2 : Option Addr)
    (inward outward : NODE α → Option Addr) : Prop :=
  (lp2.numNodes = lp.numNodes + 1 ↔ (lp.numNodes = 0 ∨ fullAt lp b)) ∧
  ((lp.numNodes = 0 ∨ fullAt lp b) →
    nodeAt lp b2 = none ∧
    ∃ n, nodeAt lp2 b2 = some n ∧ n.first = some 0 ∧ n.count = some 1 ∧ n.length = some 8 ∧
      contents n = [item] ∧ outward n = none ∧
      (lp.numNodes = 0 → inward n = none ∧ o2 = b2) ∧
      (lp.numNodes ≠ 0 → inward n = b ∧ o2 = o ∧
        ∃ m, nodeAt lp2 b = some m ∧ outward m = b2)) ∧
  (¬ (lp.numNodes = 0 ∨ fullAt lp b) →
    lp2.numNodes = lp.numNodes ∧ o2 = o ∧ b2 = b ∧
    (∃ n n2 c, nodeAt lp b = some n ∧ nodeAt lp2 b = some n2 ∧ n.count = some c ∧
      n2.count = some (c + 1) ∧ n2.first = n.first ∧ n2.length = n.length ∧
      n2.next = n.next ∧ n2.prev = n.prev) ∧
    ∀ p, p ≠ b → nodeAt lp2 p = nodeAt lp p)

/-- The states reached from `createList` by calls that return. -/
inductive Reachable : LIST α → Prop
  | create : Reachable createList
  | addFirst {lp lp2 : LIST α} {item : Ptr α} :
      Reachable lp → addFirst lp item = .ok lp2 → Reachable lp2
  | addLast {lp lp2 : LIST α} {item : Ptr α} :
      Reachable lp → addLast lp item = .ok lp2 → Reachable lp2
  | removeFirst {lp lp2 : LIST α} {v : Ptr α} :
      Reachable lp → removeFirst lp = .ok (v, lp2) → Reachable lp2
  | removeLast {lp lp2 : LIST α} {v : Ptr α} :
      Reachable lp → removeLast lp = .ok (v, lp2) → Reachable lp2
  | setItem {lp lp2 : LIST α} {index : Int} {item : Ptr α} :
      Reachable lp → setItem lp index item = .ok lp2 → Reachable lp2

/-- The states reached from `createList` by `addLast`, `removeFirst` and
`removeLast` alone. -/
inductive ReachableQ : LIST α → Prop
  | create : ReachableQ createList
  | addLast {lp lp2 : LIST α} {item : Ptr α} :
      ReachableQ lp → addLast lp item = .ok lp2 → ReachableQ lp2
  | removeFirst {lp lp2 : LIST α} {v : Ptr α} :
      ReachableQ lp → removeFirst lp = .ok (v, lp2) → ReachableQ lp2
  | removeLast {lp lp2 : LIST α} {v : Ptr α} :
      ReachableQ lp → removeLast lp = .ok (v, lp2) → ReachableQ lp2

/-- One call of `addLast` for each item, in order. -/
def addLastAll : LIST α → List (Ptr α) → Except Fault (LIST α)
  | lp, [] => .ok lp
  | lp, x :: xs =>
    match addLast lp x with
    | .ok lp2 => addLastAll lp2 xs
    | .error e => .error e

/-- One call of `addFirst` for each item, in order. -/
def addFirstAll : LIST α → List (Ptr α) → Except Fault (LIST α)
  | lp, [] => .ok lp
  | lp, x :: xs =>
    match addFirst lp x with
    | .ok lp2 => addFirstAll lp2 xs
    | .error e => .error e

/-- The values of `n` successive calls of `removeFirst`, and the final state. -/
def removeFirstN : Nat → LIST α → Except Fault (List (Ptr α) × LIST α)
  | 0, lp => .ok ([], lp)
  | n + 1, lp =>
    match removeFirst lp with
    | .ok (v, lp2) =>
      match removeFirstN n lp2 with
      | .ok (vs, lp3) => .ok (v :: vs, lp3)
      | .error e => .error e
    | .error e => .error e

/-- The values of `n` successive calls of `removeLast`, and the final state. -/
def removeLastN : Nat → LIST α → Except Fault (List (Ptr α) × LIST α)
  | 0, lp => .ok ([], lp)
  | n + 1, lp =>
    match removeLast lp with
    | .ok (v, lp2) =>
      match removeLastN n lp2 with
      | .ok (vs, lp3) => .ok (v :: vs, lp3)
      | .error e => .error e
    | .error e => .error e

/-- A push or a pop at either end. -/
inductive Op (α : Type) where
  | pushFront : Ptr α → Op α
  | pushBack : Ptr α → Op α
  | popFront : Op α
  | popBack : Op α

/-- The state after one operation. -/
def step (lp : LIST α) : Op α → Except Fault (LIST α)
  | .pushFront x => addFirst lp x
  | .pushBack x => addLast lp x
  | .popFront => (removeFirst lp).map Prod.snd
  | .popBack => (removeLast lp).map Prod.snd

/-- The state after a sequence of operations. -/
def run : LIST α → List (Op α) → Except Fault (LIST α)
  | lp, [] => .ok lp
  | lp, op :: ops =>
    match step lp op with
    | .ok lp2 => run lp2 ops
    | .error e => .error e

/-- The number of pushes of a sequence of operations. -/
def pushes : List (Op α) → Int
  | [] => 0
  | .pushFront _ :: ops => pushes ops + 1
  | .pushBack _ :: ops => pushes ops + 1
  | _ :: ops => pushes ops

/-- The number of pops of a sequence of operations. -/
def pops : List (Op α) → Int
  | [] => 0
  | .popFront :: ops => pops ops + 1
  | .popBack :: ops => pops ops + 1
  | _ :: ops => pops ops

/-- A sequence of operations issued on a container of `n` elements in which
every push has a non-null item and every pop finds an element. -/
def Legal : Int → List (Op α) → Prop
  | _, [] => True
  | n, .pushFront x :: ops => x ≠ Ptr.null ∧ Legal (n + 1) ops
  | n, .pushBack x :: ops => x ≠ Ptr.null ∧ Legal (n + 1) ops
  | n, .popFront :: ops => 0 < n ∧ Legal (n - 1) ops
  | n, .popBack :: ops => 0 < n ∧ Legal (n - 1) ops

/-! ## The representation invariant -/

/-- The content of an initialised node without its links. -/
structure Chunk (α : Type) where
  first : Int
  count : Int
  data : List (Ptr α)

/-- The node of a chunk with the given links. -/
def mkNode (c : Chunk α) (p nx : Option Addr) : NODE α :=
  { data := some c.data, next := nx, prev := p,
    first := some c.first, count := some c.count, length := some 8 }

/-- The address of the first chunk of a segment, or what follows the segment. -/
def firstAddr : List (Addr × Chunk α) → Option Addr → Option Addr
  | [], nx => nx
  | (a, _) :: _, _ => some a

/-- The address of the last chunk of a segment, or what precedes the segment. -/
def lastAddr : Option Addr → List (Addr × Chunk α) → Option Addr
  | p, [] => p
  | _, (a, _) :: rest => lastAddr (some a) rest

/-- The memory holds the chunks of a segment, linked in both directions, after
`p` and before `nx`. -/
def Linked (mem : List (Option (NODE α))) :
    Option Addr → List (Addr × Chunk α) → Option Addr → Prop
  | _, [], _ => True
  | p, (a, c) :: rest, nx =>
    mem[a]? = some (some (mkNode c p (firstAddr rest nx))) ∧ Linked mem (some a) rest nx

/-- The nodes of a chain of chunks that ends the list. -/
def toNodes : Option Addr → List (Addr × Chunk α) → List (Addr × NODE α)
  | _, [] => []
  | p, (a, c) :: rest => (a, mkNode c p (firstAddr rest none)) :: toNodes (some a) rest

/-- The bounds of the fields of a chunk. -/
def ChunkOK (c : Chunk α) : Prop :=
  0 ≤ c.first ∧ c.first < 8 ∧ 0 ≤ c.count ∧ c.count ≤ 8 ∧ c.data.length = 8

/-- The logical contents of a chunk. -/
def contentsC (c : Chunk α) : List (Ptr α) :=
  (List.range c.count.toNat).map
    (fun i : Nat => c.data.getD ((c.first + (i : Int)) % 8).toNat Ptr.junk)

/-- The concatenation of the contents of a chain of chunks. -/
def absC (cs : List (Addr × Chunk α)) : List (Ptr α) :=
  cs.flatMap (fun x => contentsC x.2)

/-- A chunk after a write behind its last element. -/
def pushC (c : Chunk α) (item : Ptr α) : Chunk α :=
  { first := c.first, count := c.count + 1,
    data := c.data.set ((c.first + c.count) % 8).toNat item }

/-- A chunk after the removal of its first element. -/
def popFrontC (c : Chunk α) : Chunk α :=
  { first := (c.first + 1) % 8, count := c.count - 1,
    data := c.data.set c.first.toNat Ptr.null }

/-- A chunk after the removal of its last element. -/
def popBackC (c : Chunk α) : Chunk α :=
  { first := c.first, count := c.count - 1, data := c.data }

/-- A chunk after a write to its slot `(first + k) mod 8`. -/
def setC (c : Chunk α) (k : Int) (item : Ptr α) : Chunk α :=
  { first := c.first, count := c.count,
    data := c.data.set ((c.first + k) % 8).toNat item }

/-- The chunk of a node allocated by `addLast`. -/
def emptyC : Chunk α := { first := 0, count := 0, data := freshData }

/-- The chunk of a node allocated by `addFirst`: the item is already in slot 0. -/
def firstC (item : Ptr α) : Chunk α :=
  { first := 0, count := 0, data := freshData.set 0 item }

/-- The list handle `lp` represents the chain of chunks `cs`. -/
structure Rep (lp : LIST α) (cs : List (Addr × Chunk α)) : Prop where
  nonempty : cs ≠ []
  nodup : (cs.map Prod.fst).Nodup
  linked : Linked lp.mem none cs none
  head : lp.head = firstAddr cs none
  tail : lp.tail = lastAddr none cs
  numNodes : lp.numNodes = cs.length
  count : lp.count = (cs.map (fun x => x.2.count)).sum
  ok : ∀ x ∈ cs, ChunkOK x.2
  middle : ∀ (i : Nat) x, cs[i]? = some x → 0 < i → i + 1 < cs.length → x.2.count = 8

/-- The invariant of the reachable states: the fresh list, or a chain of chunks. -/
def Inv (lp : LIST α) : Prop :=
  lp = createList ∨ ∃ cs, Rep lp cs

/-! ## Shapes of chains and concrete inputs -/

/-- The address, `first` and `count` of every chunk of a chain. -/
def shape (cs : List (Addr × Chunk α)) : List (Addr × Int × Int) :=
  cs.map (fun x => (x.1, x.2.first, x.2.count))

/-- The ten items 1..10, which do not fit one node. -/
def tenItems : List (Ptr Nat) := (List.range 10).map (fun i => Ptr.item (i + 1))

/-- The nine items 1..9: one more than a node holds. -/
def nineItems : List (Ptr Nat) := (List.range 9).map (fun i => Ptr.item (i + 1))

/-- The state after `addLast` of the items 1..9 and eight calls of `removeFirst`:
the head node is drained and not yet retired, the tail node holds the item 9. -/
def drainedHead : LIST Nat :=
  { count := 1, numNodes := 2, head := some 1, tail := some 2,
    mem := [some { data := none, next := none, prev := none,
                   first := none, count := none, length := none },
            some { data := some (List.replicate 8 Ptr.null), next := some 2, prev := none,
                   first := some 0, count := some 0, length := some 8 },
            some { data := some (Ptr.item 9 :: List.replicate 7 Ptr.junk), next := none,
                   prev := some 1, first := some 0, count := some 1, length := some 8 }] }

/-- The twenty items 1..20, which fill two nodes and start a third. -/
def twentyItems : List (Ptr Nat) := (List.range 20).map (fun i => Ptr.item (i + 1))

/-- Ten pushes at alternating ends, then six pops at alternating ends. -/
def mixedOps : List (Op Nat) :=
  [.pushBack (.item 1), .pushFront (.item 2), .pushBack (.item 3), .pushFront (.item 4),
   .pushBack (.item 5), .pushFront (.item 6), .pushBack (.item 7), .pushFront (.item 8),
   .pushBack (.item 9), .pushFront (.item 10),
   .popFront, .popBack, .popFront, .popBack, .popFront, .popBack]

/-! ## Lemmas on chunks -/

theorem isNull_eq_false {item : Ptr α} (h : item ≠ Ptr.null) : item.isNull = false := by
  cases item <;> simp_all [Ptr.isNull]

theorem isNull_eq_true {item : Ptr α} (h : item.isNull = true) : item = Ptr.null := by
  cases item <;> simp_all [Ptr.isNull]

theorem contents_mkNode (c : Chunk α) (p nx : Option Addr) :
    contents (mkNode c p nx) = contentsC c := rfl

theorem contentsC_length (c : Chunk α) : (contentsC c).length = c.count.toNat := by
  simp [contentsC]

theorem contentsC_pushC (c : Chunk α) (item : Ptr α) (hc : ChunkOK c) (hlt : c.count < 8) :
    contentsC (pushC c item) = contentsC c ++ [item] := by
  obtain ⟨h1, h2, h3, h4, h5⟩ := hc
  have hn : (c.count + 1).toNat = c.count.toNat + 1 := by omega
  simp only [contentsC, pushC, hn, List.range_succ, List.map_append, List.map_cons, List.map_nil]
  congr 1
  · apply List.map_congr_left
    intro i hi
    rw [List.mem_range] at hi
    rw [List.getD_eq_getElem?_getD, List.getD_eq_getElem?_getD, List.getElem?_set_ne]
    omega
  · have hk : ((c.first + c.count) % 8).toNat < c.data.length := by omega
    have he : ((c.count.toNat : Nat) : Int) = c.count := by omega
    rw [he, List.getD_eq_getElem?_getD, List.getElem?_set_self hk]
    rfl

theorem contentsC_popFrontC (c : Chunk α) (hc : ChunkOK c) (hpos : 0 < c.count) :
    contentsC c = c.data.getD c.first.toNat Ptr.junk :: contentsC (popFrontC c) := by
  obtain ⟨h1, h2, h3, h4, h5⟩ := hc
  obtain ⟨n, hn⟩ : ∃ n : Nat, c.count.toNat = n + 1 := ⟨c.count.toNat - 1, by omega⟩
  have hn2 : (c.count - 1).toNat = n := by omega
  simp only [contentsC, popFrontC, hn, hn2, List.range_succ_eq_map, List.map_cons, List.map_map]
  congr 1
  · congr 1
    simp only [Nat.cast_zero, add_zero]
    omega
  · apply List.map_congr_left
    intro i hi
    rw [List.mem_range] at hi
    simp only [Function.comp]
    rw [List.getD_eq_getElem?_getD, List.getD_eq_getElem?_getD, List.getElem?_set_ne]
    · congr 2
      simp only [Nat.succ_eq_add_one, Nat.cast_add, Nat.cast_one]
      omega
    · omega

theorem contentsC_popBackC (c : Chunk α) (hc : ChunkOK c) (hpos : 0 < c.count) :
    contentsC c =
      contentsC (popBackC c) ++ [c.data.getD ((c.first + c.count - 1) % 8).toNat Ptr.junk] := by
  obtain ⟨h1, h2, h3, h4, h5⟩ := hc
  obtain ⟨n, hn⟩ : ∃ n : Nat, c.count.toNat = n + 1 := ⟨c.count.toNat - 1, by omega⟩
  have hn2 : (c.count - 1).toNat = n := by omega
  simp only [contentsC, popBackC, hn, hn2, List.range_succ, List.map_append, List.map_cons,
    List.map_nil]
  congr 3
  omega

theorem contentsC_setC (c : Chunk α) (k : Int) (item : Ptr α) (hc : ChunkOK c)
    (hk0 : 0 ≤ k) (hk : k < c.count) :
    contentsC (setC c k item) = (contentsC c).set k.toNat item := by
  obtain ⟨h1, h2, h3, h4, h5⟩ := hc
  apply List.ext_getElem?
  intro j
  simp only [contentsC, setC, List.getElem?_set, List.getElem?_map, List.length_map,
    List.length_range]
  by_cases hj : j < c.count.toNat
  · rw [List.getElem?_range hj]
    simp only [Option.map_some', List.getD_eq_getElem?_getD, List.getElem?_set]
    by_cases hjk : k.toNat = j
    · have e1 : ((c.first + k) % 8).toNat = ((c.first + (j : Int)) % 8).toNat := by omega
      have e2 : ((c.first + (j : Int)) % 8).toNat < c.data.length := by omega
      have e3 : k.toNat < c.count.toNat := by omega
      simp [hjk, e1, e2, hj]
    · have e1 : ((c.first + k) % 8).toNat ≠ ((c.first + (j : Int)) % 8).toNat := by omega
      simp [hjk, e1]
  · have : (List.range c.count.toNat)[j]? = none := by
      apply List.getElem?_eq_none
      simp only [List.length_range]
      omega
    simp only [this, Option.map_none']
    split <;> [split; rfl]
    · omega
    · rfl

/-! ## Lemmas on linked segments -/

theorem firstAddr_append (xs ys : List (Addr × Chunk α)) (nx : Option Addr) :
    firstAddr (xs ++ ys) nx = firstAddr xs (firstAddr ys nx) := by
  cases xs with
  | nil => rfl
  | cons x xs => obtain ⟨a, c⟩ := x; rfl

theorem lastAddr_append (p : Option Addr) (xs ys : List (Addr × Chunk α)) :
    lastAddr p (xs ++ ys) = lastAddr (lastAddr p xs) ys := by
  induction xs generalizing p with
  | nil => rfl
  | cons x xs ih => obtain ⟨a, c⟩ := x; exact ih (some a)

theorem linked_append {mem : List (Option (NODE α))} (xs ys : List (Addr × Chunk α))
    (p nx : Option Addr) :
    Linked mem p (xs ++ ys) nx ↔
      Linked mem p xs (firstAddr ys nx) ∧ Linked mem (lastAddr p xs) ys nx := by
  induction xs generalizing p with
  | nil => simp [Linked, lastAddr]
  | cons x xs ih =>
    obtain ⟨a, c⟩ := x
    show (mem[a]? = some (some (mkNode c p (firstAddr (xs ++ ys) nx))) ∧
        Linked mem (some a) (xs ++ ys) nx) ↔ _
    rw [ih, firstAddr_append]
    simp only [Linked, lastAddr, and_assoc]

theorem linked_lt {mem : List (Option (NODE α))} {xs : List (Addr × Chunk α)}
    {p nx : Option Addr} (h : Linked mem p xs nx) : ∀ a ∈ xs.map Prod.fst, a < mem.length := by
  induction xs generalizing p with
  | nil => simp
  | cons x xs ih =>
    obtain ⟨b, c⟩ := x
    obtain ⟨h1, h2⟩ := h
    intro a ha
    simp only [List.map_cons, List.mem_cons] at ha
    rcases ha with rfl | ha
    · by_contra hge
      rw [List.getElem?_eq_none (not_lt.mp hge)] at h1
      exact absurd h1 (by simp)
    · exact ih h2 a ha

theorem linked_set_frame {mem : List (Option (NODE α))} {xs : List (Addr × Chunk α)}
    {p nx : Option Addr} {a : Addr} (v : Option (NODE α)) (ha : a ∉ xs.map Prod.fst) :
    Linked (mem.set a v) p xs nx ↔ Linked mem p xs nx := by
  induction xs generalizing p with
  | nil => simp [Linked]
  | cons x xs ih =>
    obtain ⟨b, c⟩ := x
    simp only [List.map_cons, List.mem_cons, not_or] at ha
    simp only [Linked, ih ha.2, List.getElem?_set_ne ha.1]

theorem linked_push_frame {mem : List (Option (NODE α))} {xs : List (Addr × Chunk α)}
    {p nx : Option Addr} (v : Option (NODE α)) (h : Linked mem p xs nx) :
    Linked (mem ++ [v]) p xs nx := by
  induction xs generalizing p with
  | nil => simp [Linked]
  | cons x xs ih =>
    obtain ⟨b, c⟩ := x
    have hb : b < mem.length := linked_lt h b (by simp)
    obtain ⟨h1, h2⟩ := h
    exact ⟨by rw [List.getElem?_append_left hb]; exact h1, ih h2⟩

theorem nodup_length_le {l : List Nat} {n : Nat} (hd : l.Nodup) (hb : ∀ a ∈ l, a < n) :
    l.length ≤ n := by
  have hs : l ⊆ List.range n := fun a ha => List.mem_range.mpr (hb a ha)
  simpa using (List.subperm_of_subset hd hs).length_le

theorem chainFrom_linked {mem : List (Option (NODE α))} {cs : List (Addr × Chunk α)}
    {p : Option Addr} (h : Linked mem p cs none) (fuel : Nat) (hf : cs.length ≤ fuel) :
    chainFrom mem fuel (firstAddr cs none) = toNodes p cs := by
  induction cs generalizing p fuel with
  | nil => cases fuel <;> simp [chainFrom, firstAddr, toNodes]
  | cons x xs ih =>
    obtain ⟨a, c⟩ := x
    obtain ⟨h1, h2⟩ := h
    cases fuel with
    | zero => simp at hf
    | succ fuel =>
      simp only [firstAddr, chainFrom, h1, toNodes, mkNode]
      congr 1
      exact ih h2 fuel (by simpa using hf)

theorem toNodes_contents (p : Option Addr) (cs : List (Addr × Chunk α)) :
    (toNodes p cs).flatMap (fun x => contents x.2) = absC cs := by
  induction cs generalizing p with
  | nil => rfl
  | cons x xs ih =>
    obtain ⟨a, c⟩ := x
    simp only [toNodes, List.flatMap_cons, absC, contents_mkNode]
    congr 1
    exact ih (some a)

theorem Rep.length_le {lp : LIST α} {cs : List (Addr × Chunk α)} (h : Rep lp cs) :
    cs.length ≤ lp.mem.length := by
  have := nodup_length_le h.nodup (linked_lt h.linked)
  simpa using this

theorem Rep.nodes_eq {lp : LIST α} {cs : List (Addr × Chunk α)} (h : Rep lp cs) :
    nodes lp = toNodes none cs := by
  unfold nodes
  rw [h.head]
  exact chainFrom_linked h.linked _ h.length_le

theorem Rep.abs_eq {lp : LIST α} {cs : List (Addr × Chunk α)} (h : Rep lp cs) :
    abs lp = absC cs := by
  unfold abs
  rw [h.nodes_eq, toNodes_contents]

theorem abs_createList : abs (createList : LIST α) = [] := by
  simp [abs, nodes, createList, chainFrom, contents]

/-! ## The calls on a represented state -/

theorem deref_some {mem : List (Option (NODE α))} {a : Addr} {n : NODE α}
    (h : mem[a]? = some (some n)) : deref mem (some a) = .ok (a, n) := by
  simp [deref, h]

theorem needsNode_mk (lp : LIST α) (a : Addr) (c : Chunk α) (p nx : Option Addr)
    (hn : lp.numNodes ≠ 0) (h : lp.mem[a]? = some (some (mkNode c p nx))) :
    needsNode lp (some a) = .ok (decide (c.count = 8)) := by
  simp [needsNode, hn, deref_some h, mkNode, rd, bind, Except.bind, pure, Except.pure]

theorem putAtEnd_mk (lp : LIST α) (a : Addr) (c : Chunk α) (p nx : Option Addr) (item : Ptr α)
    (h : lp.mem[a]? = some (some (mkNode c p nx))) (hc : ChunkOK c) (hlt : c.count < 8) :
    putAtEnd lp (some a) item = .ok { lp with
      mem := lp.mem.set a (some (mkNode (pushC c item) p nx)), count := lp.count + 1 } := by
  obtain ⟨h1, h2, h3, h4, h5⟩ := hc
  have hm : (c.first + c.count).tmod 8 = (c.first + c.count) % 8 :=
    Int.tmod_eq_emod (by omega) (by omega)
  have hb : 0 ≤ (c.first + c.count) % 8 ∧ (c.first + c.count) % 8 < (c.data.length : Int) := by
    omega
  simp [putAtEnd, deref_some h, mkNode, rd, cmod, writeSlot, bind, Except.bind, pure,
    Except.pure, pushC, hm, hb]

theorem Rep.update {lp : LIST α} {pre post : List (Addr × Chunk α)} {a : Addr} {c : Chunk α}
    (h : Rep lp (pre ++ (a, c) :: post)) (c2 : Chunk α) (hc : ChunkOK c2)
    (hm : pre ≠ [] → post ≠ [] → c2.count = 8) (n : Int)
    (hn : n = lp.count + (c2.count - c.count)) :
    Rep { lp with
        mem := lp.mem.set a (some (mkNode c2 (lastAddr none pre) (firstAddr post none))),
        count := n }
      (pre ++ (a, c2) :: post) := by
  have hl := (linked_append _ _ _ _).mp h.linked
  obtain ⟨hl1, hl2, hl3⟩ := hl
  have hnd := h.nodup
  simp only [List.map_append, List.map_cons, List.nodup_append, List.nodup_cons,
    List.disjoint_cons_right] at hnd
  have ha : a < lp.mem.length := linked_lt h.linked a (by simp)
  refine ⟨by simp, by simpa using h.nodup, ?_, ?_, ?_, ?_, ?_, ?_, ?_⟩
  · rw [linked_append]
    refine ⟨(linked_set_frame _ hnd.2.2.1).mpr hl1, ?_, (linked_set_frame _ hnd.2.1.1).mpr hl3⟩
    exact List.getElem?_set_self ha
  · show lp.head = _
    rw [h.head, firstAddr_append, firstAddr_append]
    rfl
  · show lp.tail = _
    rw [h.tail, lastAddr_append, lastAddr_append]
    rfl
  · simpa using h.numNodes
  · have := h.count
    simp only [List.map_append, List.map_cons, List.sum_append, List.sum_cons] at this ⊢
    omega
  · intro x hx
    simp only [List.mem_append, List.mem_cons] at hx
    rcases hx with hx | rfl | hx
    · exact h.ok x (by simp [hx])
    · exact hc
    · exact h.ok x (by simp [hx])
  · intro i x hx hi hlen
    by_cases hip : i = pre.length
    · subst hip
      simp only [List.getElem?_append_right (le_refl _), Nat.sub_self, List.getElem?_cons_zero,
        Option.some.injEq] at hx
      subst hx
      apply hm
      · intro e; simp [e] at hi
      · intro e; simp [e] at hlen
    · apply h.middle i x ?_ hi (by simpa using hlen)
      rcases Nat.lt_or_gt_of_ne hip with hlt | hgt
      · rw [List.getElem?_append_left hlt] at hx ⊢
        exact hx
      · rw [List.getElem?_append_right (by omega)] at hx ⊢
        obtain ⟨k, hk⟩ : ∃ k, i - pre.length = k + 1 := ⟨i - pre.length - 1, by omega⟩
        rw [hk] at hx ⊢
        simpa using hx

theorem Rep.last_cell {lp : LIST α} {pre : List (Addr × Chunk α)} {a : Addr} {c : Chunk α}
    (h : Rep lp (pre ++ [(a, c)])) :
    lp.mem[a]? = some (some (mkNode c (lastAddr none pre) none)) :=
  ((linked_append _ _ _ _).mp h.linked).2.1

theorem Rep.tail_eq {lp : LIST α} {pre : List (Addr × Chunk α)} {a : Addr} {c : Chunk α}
    (h : Rep lp (pre ++ [(a, c)])) : lp.tail = some a := by
  rw [h.tail, lastAddr_append]; rfl

theorem Rep.numNodes_ne {lp : LIST α} {cs : List (Addr × Chunk α)} (h : Rep lp cs) :
    lp.numNodes ≠ 0 := by
  rw [h.numNodes]
  have := List.length_pos.mpr h.nonempty
  omega

theorem deref_push_old (mem : List (Option (NODE α))) (v : Option (NODE α)) (a : Addr)
    (ha : a < mem.length) : deref (mem ++ [v]) (some a) = deref mem (some a) := by
  simp [deref, List.getElem?_append_left ha]

theorem deref_push_new (mem : List (Option (NODE α))) (n : NODE α) :
    deref (mem ++ [some n]) (some mem.length) = .ok (mem.length, n) := by
  simp [deref]

theorem growLast_eq {lp : LIST α} {pre : List (Addr × Chunk α)} {a : Addr} {c : Chunk α}
    (h : Rep lp (pre ++ [(a, c)])) (hfull : c.count = 8) :
    growLast lp = .ok { lp with
      mem := (lp.mem ++ [some (mkNode emptyC (some a) none)]).set a
        (some (mkNode c (lastAddr none pre) (some lp.mem.length))),
      tail := some lp.mem.length, numNodes := lp.numNodes + 1 } := by
  have hcell := h.last_cell
  have ha : a < lp.mem.length := linked_lt h.linked a (by simp)
  simp [growLast, h.numNodes_ne, h.tail_eq, bind, Except.bind, pure, Except.pure, rd,
    deref_push_old _ _ _ ha, deref_push_new, deref_some hcell, mkNode, hfull, emptyC]

theorem growLast_rep {lp : LIST α} {pre : List (Addr × Chunk α)} {a : Addr} {c : Chunk α}
    (h : Rep lp (pre ++ [(a, c)])) (hfull : c.count = 8) :
    Rep { lp with
      mem := (lp.mem ++ [some (mkNode emptyC (some a) none)]).set a
        (some (mkNode c (lastAddr none pre) (some lp.mem.length))),
      tail := some lp.mem.length, numNodes := lp.numNodes + 1 }
      (pre ++ [(a, c), (lp.mem.length, emptyC)]) := by
  have hl := (linked_append _ _ _ _).mp h.linked
  obtain ⟨hl1, hl2, -⟩ := hl
  have hlt := linked_lt h.linked
  have ha : a < lp.mem.length := hlt a (by simp)
  have hnd := h.nodup
  simp only [List.map_append, List.map_cons, List.map_nil, List.nodup_append, List.nodup_cons,
    List.disjoint_cons_right] at hnd
  refine ⟨by simp, ?_, ?_, ?_, ?_, ?_, ?_, ?_, ?_⟩
  · have : lp.mem.length ∉ (pre ++ [(a, c)]).map Prod.fst := fun hm => by
      exact Nat.lt_irrefl _ (hlt _ hm)
    have hnd2 := h.nodup
    simp only [List.map_append, List.map_cons, List.map_nil] at this hnd2 ⊢
    rw [show [a, lp.mem.length] = [a] ++ [lp.mem.length] from rfl, ← List.append_assoc]
    rw [List.nodup_append]
    refine ⟨hnd2, by simp, ?_⟩
    simpa [List.disjoint_singleton] using this
  · rw [linked_append]
    refine ⟨?_, ?_, ?_, trivial⟩
    · apply (linked_set_frame _ hnd.2.2.1).mpr
      exact linked_push_frame _ hl1
    · rw [List.getElem?_set_self (by rw [List.length_append]; exact Nat.lt_add_right _ ha)]
      rfl
    · have hne : a ≠ lp.mem.length := Nat.ne_of_lt ha
      rw [List.getElem?_set_ne hne]
      simp [firstAddr, lastAddr]
  · show lp.head = _
    rw [h.head, firstAddr_append, firstAddr_append]
    rfl
  · show some lp.mem.length = _
    rw [lastAddr_append]
    rfl
  · have := h.numNodes
    simp only [List.length_append, List.length_cons, List.length_nil, Nat.cast_add,
      Nat.cast_one] at this ⊢
    omega
  · have := h.count
    simp only [List.map_append, List.map_cons, List.sum_append, List.sum_cons, List.map_nil,
      List.sum_nil, emptyC] at this ⊢
    omega
  · intro x hx
    simp only [List.mem_append, List.mem_cons, List.mem_singleton, List.not_mem_nil,
      or_false] at hx
    rcases hx with hx | rfl | rfl
    · exact h.ok x (by simp [hx])
    · exact h.ok _ (by simp)
    · simp [ChunkOK, emptyC, freshData]
  · intro i x hx hi hlen
    simp only [List.length_append, List.length_cons, List.length_nil] at hlen
    by_cases hip : i = pre.length
    · subst hip
      simp only [List.getElem?_append_right (le_refl _), Nat.sub_self, List.getElem?_cons_zero,
        Option.some.injEq] at hx
      subst hx
      exact hfull
    · have hlt2 : i < pre.length := by omega
      apply h.middle i x ?_ hi (by simp; omega)
      rw [List.getElem?_append_left hlt2] at hx ⊢
      exact hx
theorem Rep.cell {lp : LIST α} {pre post : List (Addr × Chunk α)} {a : Addr} {c : Chunk α}
    (h : Rep lp (pre ++ (a, c) :: post)) :
    lp.mem[a]? = some (some (mkNode c (lastAddr none pre) (firstAddr post none))) :=
  ((linked_append _ _ _ _).mp h.linked).2.1

theorem Rep.head_eq {lp : LIST α} {post : List (Addr × Chunk α)} {a : Addr} {c : Chunk α}
    (h : Rep lp ((a, c) :: post)) : lp.head = some a := h.head

theorem ChunkOK.pushC {c : Chunk α} (hc : ChunkOK c) (hlt : c.count < 8) (item : Ptr α) :
    ChunkOK (pushC c item) := by
  obtain ⟨h1, h2, h3, h4, h5⟩ := hc
  refine ⟨h1, h2, ?_, ?_, ?_⟩
  · show 0 ≤ c.count + 1
    omega
  · show c.count + 1 ≤ 8
    omega
  · simpa [UList.pushC] using h5

theorem putAtEnd_rep {lp : LIST α} {pre post : List (Addr × Chunk α)} {a : Addr} {c : Chunk α}
    (h : Rep lp (pre ++ (a, c) :: post)) (hends : pre = [] ∨ post = []) (hlt : c.count < 8)
    (item : Ptr α) :
    ∃ lp2, putAtEnd lp (some a) item = .ok lp2 ∧ Rep lp2 (pre ++ (a, pushC c item) :: post) := by
  have hc : ChunkOK c := h.ok (a, c) (by simp)
  refine ⟨_, putAtEnd_mk lp a c _ _ item h.cell hc hlt, ?_⟩
  apply h.update (pushC c item) (hc.pushC hlt item)
  · intro h1 h2
    rcases hends with e | e
    · exact absurd e h1
    · exact absurd e h2
  · show lp.count + 1 = lp.count + (c.count + 1 - c.count)
    omega

theorem addLast_room {lp : LIST α} {pre : List (Addr × Chunk α)} {a : Addr} {c : Chunk α}
    (h : Rep lp (pre ++ [(a, c)])) (item : Ptr α) (hi : item.isNull = false)
    (hne : c.count ≠ 8) :
    ∃ lp2, addLast lp item = .ok lp2 ∧ Rep lp2 (pre ++ [(a, pushC c item)]) := by
  have hc : ChunkOK c := h.ok (a, c) (by simp)
  have hlt : c.count < 8 := lt_of_le_of_ne hc.2.2.2.1 hne
  obtain ⟨lp2, h1, h2⟩ := putAtEnd_rep h (Or.inr rfl) hlt item
  refine ⟨lp2, ?_, h2⟩
  simp [addLast, hi, h.tail_eq, needsNode_mk lp a c _ _ h.numNodes_ne h.last_cell, hne, bind,
    Except.bind, pure, Except.pure, h1]

theorem addLast_full {lp : LIST α} {pre : List (Addr × Chunk α)} {a : Addr} {c : Chunk α}
    (h : Rep lp (pre ++ [(a, c)])) (item : Ptr α) (hi : item.isNull = false)
    (hfull : c.count = 8) :
    ∃ lp2, addLast lp item = .ok lp2 ∧
      Rep lp2 (pre ++ [(a, c), (lp.mem.length, pushC emptyC item)]) := by
  obtain ⟨lp1, hgeq, hg⟩ : ∃ lp1, growLast lp = .ok lp1 ∧
      Rep lp1 (pre ++ [(a, c), (lp.mem.length, emptyC)]) :=
    ⟨_, growLast_eq h hfull, growLast_rep h hfull⟩
  have hg2 : Rep lp1 ((pre ++ [(a, c)]) ++ (lp.mem.length, emptyC) :: []) := by
    simpa using hg
  obtain ⟨lp2, h1, h2⟩ := putAtEnd_rep hg2 (Or.inr rfl) (by simp [emptyC]) item
  refine ⟨lp2, ?_, by simpa using h2⟩
  simp [addLast, hi, h.tail_eq, needsNode_mk lp a c _ _ h.numNodes_ne h.last_cell, hfull,
    bind, Except.bind, pure, Except.pure, hgeq, hg2.tail_eq, h1]

theorem addLast_fresh (item : Ptr α) (hi : item.isNull = false) :
    ∃ lp2, addLast (createList : LIST α) item = .ok lp2 ∧ Rep lp2 [(1, pushC emptyC item)] := by
  refine ⟨_, by simp [addLast, hi, needsNode, createList, growLast, putAtEnd, deref, rd, cmod,
    writeSlot, freshData, bind, Except.bind, pure, Except.pure]; rfl, ?_⟩
  refine ⟨by simp, by simp, ?_, rfl, rfl, rfl, ?_, ?_, ?_⟩
  · simp [Linked, mkNode, pushC, emptyC, firstAddr, freshData]
  · simp [pushC, emptyC]
  · intro x hx
    simp only [List.mem_singleton] at hx
    subst hx
    simp [ChunkOK, pushC, emptyC, freshData]
  · intro i x hx hi2 hlen
    simp at hlen

theorem Rep.head_cell {lp : LIST α} {post : List (Addr × Chunk α)} {a : Addr} {c : Chunk α}
    (h : Rep lp ((a, c) :: post)) :
    lp.mem[a]? = some (some (mkNode c none (firstAddr post none))) :=
  h.linked.1

theorem deref_set_ne (mem : List (Option (NODE α))) (v : Option (NODE α)) {a b : Addr}
    (hne : a ≠ b) : deref (mem.set a v) (some b) = deref mem (some b) := by
  simp [deref, List.getElem?_set_ne hne]

theorem growFirst_eq {lp : LIST α} {post : List (Addr × Chunk α)} {a : Addr} {c : Chunk α}
    (h : Rep lp ((a, c) :: post)) (item : Ptr α) (hfull : c.count = 8) :
    growFirst lp item = .ok { lp with
      mem := (lp.mem ++ [some (mkNode (firstC item) none (some a))]).set a
        (some (mkNode c (some lp.mem.length) (firstAddr post none))),
      head := some lp.mem.length, numNodes := lp.numNodes + 1 } := by
  have hcell := h.head_cell
  have ha : a < lp.mem.length := linked_lt h.linked a (by simp)
  have hne : a ≠ lp.mem.length := Nat.ne_of_lt ha
  simp [growFirst, h.numNodes_ne, h.head_eq, bind, Except.bind, pure, Except.pure, rd,
    deref_push_old _ _ _ ha, deref_push_new, deref_some hcell, mkNode, hfull, firstC, writeSlot,
    freshData, deref_set_ne _ _ hne]
  rw [List.set_comm _ _ _ hne]
  congr 1
  simp

theorem growFirst_rep {lp : LIST α} {post : List (Addr × Chunk α)} {a : Addr} {c : Chunk α}
    (h : Rep lp ((a, c) :: post)) (item : Ptr α) (hfull : c.count = 8) :
    Rep { lp with
      mem := (lp.mem ++ [some (mkNode (firstC item) none (some a))]).set a
        (some (mkNode c (some lp.mem.length) (firstAddr post none))),
      head := some lp.mem.length, numNodes := lp.numNodes + 1 }
      ((lp.mem.length, firstC item) :: (a, c) :: post) := by
  obtain ⟨hl1, hl2⟩ := h.linked
  have hlt := linked_lt h.linked
  have ha : a < lp.mem.length := hlt a (by simp)
  have hne : a ≠ lp.mem.length := Nat.ne_of_lt ha
  have hnd := h.nodup
  simp only [List.map_cons, List.nodup_cons] at hnd
  refine ⟨by simp, ?_, ?_, rfl, ?_, ?_, ?_, ?_, ?_⟩
  · have : lp.mem.length ∉ ((a, c) :: post).map Prod.fst := fun hm =>
      Nat.lt_irrefl _ (hlt _ hm)
    exact List.nodup_cons.mpr ⟨this, h.nodup⟩
  · refine ⟨?_, ?_, ?_⟩
    · rw [List.getElem?_set_ne hne]
      simp [firstAddr]
    · rw [List.getElem?_set_self (by rw [List.length_append]; exact Nat.lt_add_right _ ha)]
    · apply (linked_set_frame _ hnd.1).mpr
      exact linked_push_frame _ hl2
  · show lp.tail = _
    rw [h.tail]
    rfl
  · have := h.numNodes
    simp only [List.length_cons, Nat.cast_add, Nat.cast_one] at this ⊢
    omega
  · have := h.count
    simp only [List.map_cons, List.sum_cons, firstC] at this ⊢
    omega
  · intro x hx
    simp only [List.mem_cons] at hx
    rcases hx with rfl | hx
    · simp [ChunkOK, firstC, freshData]
    · exact h.ok x (by simpa using hx)
  · intro i x hx hi hlen
    obtain ⟨k, rfl⟩ : ∃ k, i = k + 1 := ⟨i - 1, by omega⟩
    simp only [List.getElem?_cons_succ] at hx
    simp only [List.length_cons] at hlen
    cases k with
    | zero =>
      simp only [List.getElem?_cons_zero, Option.some.injEq] at hx
      subst hx
      exact hfull
    | succ k => exact h.middle (k + 1) x hx (by omega) (by simp; omega)

theorem addFirst_room {lp : LIST α} {post : List (Addr × Chunk α)} {a : Addr} {c : Chunk α}
    (h : Rep lp ((a, c) :: post)) (item : Ptr α) (hi : item.isNull = false)
    (hne : c.count ≠ 8) :
    ∃ lp2, addFirst lp item = .ok lp2 ∧ Rep lp2 ((a, pushC c item) :: post) := by
  have hc : ChunkOK c := h.ok (a, c) (by simp)
  have hlt : c.count < 8 := lt_of_le_of_ne hc.2.2.2.1 hne
  have h0 : Rep lp ([] ++ (a, c) :: post) := h
  obtain ⟨lp2, h1, h2⟩ := putAtEnd_rep h0 (Or.inl rfl) hlt item
  refine ⟨lp2, ?_, h2⟩
  simp [addFirst, hi, h.head_eq, needsNode_mk lp a c _ _ h.numNodes_ne h.head_cell, hne, bind,
    Except.bind, pure, Except.pure, h1]

theorem addFirst_full {lp : LIST α} {post : List (Addr × Chunk α)} {a : Addr} {c : Chunk α}
    (h : Rep lp ((a, c) :: post)) (item : Ptr α) (hi : item.isNull = false)
    (hfull : c.count = 8) :
    ∃ lp2, addFirst lp item = .ok lp2 ∧
      Rep lp2 ((lp.mem.length, pushC (firstC item) item) :: (a, c) :: post) := by
  obtain ⟨lp1, hgeq, hg⟩ : ∃ lp1, growFirst lp item = .ok lp1 ∧
      Rep lp1 ((lp.mem.length, firstC item) :: (a, c) :: post) :=
    ⟨_, growFirst_eq h item hfull, growFirst_rep h item hfull⟩
  have hg2 : Rep lp1 ([] ++ (lp.mem.length, firstC item) :: (a, c) :: post) := hg
  obtain ⟨lp2, h1, h2⟩ := putAtEnd_rep hg2 (Or.inl rfl) (by simp [firstC]) item
  refine ⟨lp2, ?_, h2⟩
  simp [addFirst, hi, h.head_eq, needsNode_mk lp a c _ _ h.numNodes_ne h.head_cell, hfull,
    bind, Except.bind, pure, Except.pure, hgeq, hg.head_eq, h1]

theorem addFirst_fresh (item : Ptr α) (hi : item.isNull = false) :
    ∃ lp2, addFirst (createList : LIST α) item = .ok lp2 ∧
      Rep lp2 [(1, pushC (firstC item) item)] := by
  refine ⟨_, by simp [addFirst, hi, needsNode, createList, growFirst, putAtEnd, deref, rd, cmod,
    writeSlot, freshData, bind, Except.bind, pure, Except.pure]; rfl, ?_⟩
  refine ⟨by simp, by simp, ?_, rfl, rfl, rfl, ?_, ?_, ?_⟩
  · simp [Linked, mkNode, pushC, firstC, firstAddr, freshData]
  · simp [pushC, firstC]
  · intro x hx
    simp only [List.mem_singleton] at hx
    subst hx
    simp [ChunkOK, pushC, firstC, freshData]
  · intro i x hx hi2 hlen
    simp at hlen

theorem contentsC_push_emptyC (item : Ptr α) : contentsC (pushC emptyC item) = [item] := by
  rfl

theorem contentsC_push_firstC (item : Ptr α) : contentsC (pushC (firstC item) item) = [item] := by
  rfl

theorem counts_nonneg {cs : List (Addr × Chunk α)} (h : ∀ x ∈ cs, ChunkOK x.2) :
    0 ≤ (cs.map (fun x => x.2.count)).sum := by
  induction cs with
  | nil => simp
  | cons x xs ih =>
    have h1 := (h x (by simp)).2.2.1
    have h2 := ih (fun y hy => h y (by simp [hy]))
    simp only [List.map_cons, List.sum_cons]
    omega

theorem ChunkOK.popFrontC {c : Chunk α} (hc : ChunkOK c) (hpos : 0 < c.count) :
    ChunkOK (popFrontC c) := by
  obtain ⟨h1, h2, h3, h4, h5⟩ := hc
  refine ⟨?_, ?_, ?_, ?_, ?_⟩
  · show 0 ≤ (c.first + 1) % 8
    omega
  · show (c.first + 1) % 8 < 8
    omega
  · show 0 ≤ c.count - 1
    omega
  · show c.count - 1 ≤ 8
    omega
  · simpa [UList.popFrontC] using h5

theorem ChunkOK.popBackC {c : Chunk α} (hc : ChunkOK c) (hpos : 0 < c.count) :
    ChunkOK (popBackC c) := by
  obtain ⟨h1, h2, h3, h4, h5⟩ := hc
  refine ⟨h1, h2, ?_, ?_, h5⟩
  · show 0 ≤ c.count - 1
    omega
  · show c.count - 1 ≤ 8
    omega

theorem takeFirst_rep {lp : LIST α} {post : List (Addr × Chunk α)} {a : Addr} {c : Chunk α}
    (h : Rep lp ((a, c) :: post)) (hpos : 0 < c.count) :
    ∃ lp2, takeFirst lp = .ok (c.data.getD c.first.toNat Ptr.junk, lp2) ∧
      Rep lp2 ((a, popFrontC c) :: post) := by
  have hc : ChunkOK c := h.ok (a, c) (by simp)
  have h0 : Rep lp ([] ++ (a, c) :: post) := h
  have hr := h0.update (popFrontC c) (hc.popFrontC hpos) (fun e => absurd rfl e) (lp.count - 1)
    (by show lp.count - 1 = lp.count + (c.count - 1 - c.count); omega)
  refine ⟨_, ?_, hr⟩
  obtain ⟨h1, h2, h3, h4, h5⟩ := hc
  have hm : (c.first + 1).tmod 8 = (c.first + 1) % 8 := Int.tmod_eq_emod (by omega) (by omega)
  have hb : 0 ≤ c.first ∧ c.first < (c.data.length : Int) := by omega
  simp [takeFirst, h.head_eq, deref_some h.head_cell, mkNode, rd, cmod, readSlot, writeSlot,
    bind, Except.bind, pure, Except.pure, popFrontC, hm, hb, lastAddr]

theorem takeLast_rep {lp : LIST α} {pre : List (Addr × Chunk α)} {a : Addr} {c : Chunk α}
    (h : Rep lp (pre ++ [(a, c)])) (hpos : 0 < c.count) :
    ∃ lp2, takeLast lp =
        .ok (c.data.getD ((c.first + c.count - 1) % 8).toNat Ptr.junk, lp2) ∧
      Rep lp2 (pre ++ [(a, popBackC c)]) := by
  have hc : ChunkOK c := h.ok (a, c) (by simp)
  have hr := h.update (popBackC c) (hc.popBackC hpos) (fun _ e => absurd rfl e) (lp.count - 1)
    (by show lp.count - 1 = lp.count + (c.count - 1 - c.count); omega)
  refine ⟨_, ?_, hr⟩
  obtain ⟨h1, h2, h3, h4, h5⟩ := hc
  have hm : (c.first + c.count - 1).tmod 8 = (c.first + c.count - 1) % 8 :=
    Int.tmod_eq_emod (by omega) (by omega)
  have hb : 0 ≤ (c.first + c.count - 1) % 8 ∧
      (c.first + c.count - 1) % 8 < (c.data.length : Int) := by omega
  simp [takeLast, h.tail_eq, deref_some h.last_cell, mkNode, rd, cmod, readSlot,
    bind, Except.bind, pure, Except.pure, popBackC, hm, hb, firstAddr]

theorem retireFirst_keep {lp : LIST α} {post : List (Addr × Chunk α)} {a : Addr} {c : Chunk α}
    (h : Rep lp ((a, c) :: post)) (hne : c.count ≠ 0) : retireFirst lp = .ok lp := by
  simp [retireFirst, h.head_eq, deref_some h.head_cell, mkNode, rd, bind, Except.bind, pure,
    Except.pure, hne]

theorem retireLast_keep {lp : LIST α} {pre : List (Addr × Chunk α)} {a : Addr} {c : Chunk α}
    (h : Rep lp (pre ++ [(a, c)])) (hne : c.count ≠ 0) : retireLast lp = .ok lp := by
  simp [retireLast, h.tail_eq, deref_some h.last_cell, mkNode, rd, bind, Except.bind, pure,
    Except.pure, hne]

theorem retireFirst_eq {lp : LIST α} {post : List (Addr × Chunk α)} {a b : Addr}
    {c d : Chunk α} (h : Rep lp ((a, c) :: (b, d) :: post)) (h0 : c.count = 0) :
    retireFirst lp = .ok { lp with
      head := some b,
      mem := (lp.mem.set b (some (mkNode d none (firstAddr post none)))).set a none,
      numNodes := lp.numNodes - 1 } := by
  have hb : lp.mem[b]? = some (some (mkNode d (some a) (firstAddr post none))) := h.linked.2.1
  simp [retireFirst, h.head_eq, deref_some h.head_cell, mkNode, rd, bind, Except.bind, pure,
    Except.pure, h0, firstAddr, deref_some hb]

theorem retireFirst_rep {lp : LIST α} {post : List (Addr × Chunk α)} {a b : Addr}
    {c d : Chunk α} (h : Rep lp ((a, c) :: (b, d) :: post)) (h0 : c.count = 0) :
    Rep { lp with
      head := some b,
      mem := (lp.mem.set b (some (mkNode d none (firstAddr post none)))).set a none,
      numNodes := lp.numNodes - 1 } ((b, d) :: post) := by
  obtain ⟨hl1, hl2, hl3⟩ := h.linked
  have hlt := linked_lt h.linked
  have hb : b < lp.mem.length := hlt b (by simp)
  have hnd := h.nodup
  simp only [List.map_cons, List.nodup_cons, List.mem_cons, not_or] at hnd
  refine ⟨by simp, by simpa using hnd.2, ?_, rfl, ?_, ?_, ?_, ?_, ?_⟩
  · refine ⟨?_, ?_⟩
    · rw [List.getElem?_set_ne hnd.1.1, List.getElem?_set_self hb]
    · apply (linked_set_frame _ hnd.1.2).mpr
      exact (linked_set_frame _ hnd.2.1).mpr hl3
  · show lp.tail = _
    rw [h.tail]
    rfl
  · have := h.numNodes
    simp only [List.length_cons, Nat.cast_add, Nat.cast_one] at this ⊢
    omega
  · have := h.count
    simp only [List.map_cons, List.sum_cons] at this ⊢
    omega
  · intro x hx
    exact h.ok x (List.mem_cons_of_mem _ hx)
  · intro i x hx hi hlen
    exact h.middle (i + 1) x (by simpa using hx) (by omega) (by simpa using hlen)

theorem retireLast_eq {lp : LIST α} {pre : List (Addr × Chunk α)} {a b : Addr}
    {c d : Chunk α} (h : Rep lp (pre ++ [(b, d), (a, c)])) (h0 : c.count = 0) :
    retireLast lp = .ok { lp with
      tail := some b,
      mem := (lp.mem.set b (some (mkNode d (lastAddr none pre) none))).set a none,
      numNodes := lp.numNodes - 1 } := by
  have h2 : Rep lp ((pre ++ [(b, d)]) ++ [(a, c)]) := by simpa using h
  have hb : lp.mem[b]? = some (some (mkNode d (lastAddr none pre) (some a))) := h.cell
  have ha := h2.last_cell
  rw [lastAddr_append] at ha
  simp [retireLast, h2.tail_eq, deref_some ha, mkNode, rd, bind, Except.bind, pure,
    Except.pure, h0, lastAddr, deref_some hb]

theorem retireLast_rep {lp : LIST α} {pre : List (Addr × Chunk α)} {a b : Addr}
    {c d : Chunk α} (h : Rep lp (pre ++ [(b, d), (a, c)])) (h0 : c.count = 0) :
    Rep { lp with
      tail := some b,
      mem := (lp.mem.set b (some (mkNode d (lastAddr none pre) none))).set a none,
      numNodes := lp.numNodes - 1 } (pre ++ [(b, d)]) := by
  obtain ⟨hl1, hl2, hl3⟩ := (linked_append _ _ _ _).mp h.linked
  have hlt := linked_lt h.linked
  have hb : b < lp.mem.length := hlt b (by simp)
  have hnd := h.nodup
  simp only [List.map_append, List.map_cons, List.map_nil, List.nodup_append, List.nodup_cons,
    List.disjoint_cons_right, List.mem_cons, not_or, List.mem_singleton] at hnd
  refine ⟨by simp, ?_, ?_, ?_, ?_, ?_, ?_, ?_, ?_⟩
  · simp only [List.map_append, List.map_cons, List.map_nil, List.nodup_append, List.nodup_cons,
      List.disjoint_cons_right]
    exact ⟨hnd.1, ⟨by simp, List.nodup_nil⟩, hnd.2.2.1, by simp⟩
  · rw [linked_append]
    refine ⟨?_, ?_, trivial⟩
    · apply (linked_set_frame _ hnd.2.2.2.1).mpr
      exact (linked_set_frame _ hnd.2.2.1).mpr hl1
    · rw [List.getElem?_set_ne (Ne.symm hnd.2.1.1.1), List.getElem?_set_self hb]
      rfl
  · show lp.head = _
    rw [h.head, firstAddr_append, firstAddr_append]
    rfl
  · show some b = _
    rw [lastAddr_append]
    rfl
  · have := h.numNodes
    simp only [List.length_append, List.length_cons, List.length_nil, Nat.cast_add,
      Nat.cast_one] at this ⊢
    omega
  · have := h.count
    simp only [List.map_append, List.map_cons, List.map_nil, List.sum_append, List.sum_cons,
      List.sum_nil] at this ⊢
    omega
  · intro x hx
    apply h.ok x
    simp only [List.mem_append, List.mem_cons, List.mem_singleton, List.not_mem_nil,
      or_false] at hx ⊢
    tauto
  · intro i x hx hi hlen
    simp only [List.length_append, List.length_cons, List.length_nil] at hlen
    apply h.middle i x ?_ hi (by simp; omega)
    by_cases hip : i < pre.length
    · rw [List.getElem?_append_left hip] at hx ⊢
      exact hx
    · omega

theorem absC_cons (x : Addr × Chunk α) (cs : List (Addr × Chunk α)) :
    absC (x :: cs) = contentsC x.2 ++ absC cs := rfl

theorem absC_append (xs ys : List (Addr × Chunk α)) : absC (xs ++ ys) = absC xs ++ absC ys := by
  simp [absC]

theorem absC_singleton (x : Addr × Chunk α) : absC [x] = contentsC x.2 := by
  simp [absC]

theorem contentsC_of_count_zero {c : Chunk α} (h : c.count = 0) : contentsC c = [] := by
  simp [contentsC, h]

theorem Rep.count_nonneg {lp : LIST α} {cs : List (Addr × Chunk α)} (h : Rep lp cs) :
    0 ≤ lp.count := by
  rw [h.count]
  exact counts_nonneg h.ok

theorem Rep.absC_length {lp : LIST α} {cs : List (Addr × Chunk α)} (h : Rep lp cs) :
    ((absC cs).length : Int) = lp.count := by
  rw [h.count]
  have hok := h.ok
  clear h
  induction cs with
  | nil => rfl
  | cons x xs ih =>
    have h1 := (hok x (by simp)).2.2.1
    have h2 := ih (fun y hy => hok y (by simp [hy]))
    simp only [absC_cons, List.length_append, contentsC_length, List.map_cons, List.sum_cons,
      Nat.cast_add]
    omega

theorem removeFirst_keep {lp : LIST α} {post : List (Addr × Chunk α)} {a : Addr} {c : Chunk α}
    (h : Rep lp ((a, c) :: post)) (hpos : 0 < c.count) :
    ∃ lp2, removeFirst lp = .ok (c.data.getD c.first.toNat Ptr.junk, lp2) ∧
      Rep lp2 ((a, popFrontC c) :: post) := by
  obtain ⟨lp2, h1, h2⟩ := takeFirst_rep h hpos
  refine ⟨lp2, ?_, h2⟩
  have hcount : 0 < lp.count := by
    have := h.count
    have hn := counts_nonneg (fun x hx => h.ok x (List.mem_cons_of_mem _ hx))
    simp only [List.map_cons, List.sum_cons] at this
    omega
  simp [removeFirst, hcount, retireFirst_keep h (ne_of_gt hpos), bind, Except.bind, h1]

theorem Rep.second_pos {lp : LIST α} {post : List (Addr × Chunk α)} {a b : Addr}
    {c d : Chunk α} (h : Rep lp ((a, c) :: (b, d) :: post)) (h0 : c.count = 0)
    (hcount : 0 < lp.count) : 0 < d.count := by
  cases post with
  | nil =>
    have := h.count
    simp only [List.map_cons, List.sum_cons, List.map_nil, List.sum_nil] at this
    omega
  | cons y ys =>
    have := h.middle 1 (b, d) rfl (by omega) (by simp)
    simp only at this
    omega

theorem removeFirst_retire {lp : LIST α} {post : List (Addr × Chunk α)} {a b : Addr}
    {c d : Chunk α} (h : Rep lp ((a, c) :: (b, d) :: post)) (h0 : c.count = 0)
    (hcount : 0 < lp.count) :
    ∃ lp2, removeFirst lp = .ok (d.data.getD d.first.toNat Ptr.junk, lp2) ∧
      Rep lp2 ((b, popFrontC d) :: post) := by
  obtain ⟨lp2, h1, h2⟩ := takeFirst_rep (retireFirst_rep h h0) (h.second_pos h0 hcount)
  refine ⟨lp2, ?_, h2⟩
  simp [removeFirst, hcount, retireFirst_eq h h0, bind, Except.bind, h1]

theorem removeFirst_rep {lp : LIST α} {cs : List (Addr × Chunk α)} (h : Rep lp cs)
    (hcount : 0 < lp.count) :
    ∃ v lp2 cs2, removeFirst lp = .ok (v, lp2) ∧ Rep lp2 cs2 ∧ absC cs = v :: absC cs2 := by
  cases cs with
  | nil => exact absurd rfl h.nonempty
  | cons x rest =>
    obtain ⟨a, c⟩ := x
    have hc : ChunkOK c := h.ok (a, c) (by simp)
    by_cases h0 : c.count = 0
    · cases rest with
      | nil =>
        have := h.count
        simp only [List.map_cons, List.sum_cons, List.map_nil, List.sum_nil] at this
        omega
      | cons y post =>
        obtain ⟨b, d⟩ := y
        have hd : ChunkOK d := h.ok (b, d) (by simp)
        obtain ⟨lp2, h1, h2⟩ := removeFirst_retire h h0 hcount
        refine ⟨_, lp2, _, h1, h2, ?_⟩
        rw [absC_cons, absC_cons, absC_cons, contentsC_of_count_zero h0,
          contentsC_popFrontC d hd (h.second_pos h0 hcount)]
        rfl
    · have hpos : 0 < c.count := lt_of_le_of_ne hc.2.2.1 (Ne.symm h0)
      obtain ⟨lp2, h1, h2⟩ := removeFirst_keep h hpos
      refine ⟨_, lp2, _, h1, h2, ?_⟩
      rw [absC_cons, absC_cons, contentsC_popFrontC c hc hpos]
      rfl

theorem removeLast_keep {lp : LIST α} {pre : List (Addr × Chunk α)} {a : Addr} {c : Chunk α}
    (h : Rep lp (pre ++ [(a, c)])) (hpos : 0 < c.count) :
    ∃ lp2, removeLast lp =
        .ok (c.data.getD ((c.first + c.count - 1) % 8).toNat Ptr.junk, lp2) ∧
      Rep lp2 (pre ++ [(a, popBackC c)]) := by
  obtain ⟨lp2, h1, h2⟩ := takeLast_rep h hpos
  refine ⟨lp2, ?_, h2⟩
  have hcount : 0 < lp.count := by
    have := h.count
    have hn := counts_nonneg (fun x hx => h.ok x (List.mem_append_left _ hx))
    simp only [List.map_append, List.map_cons, List.map_nil, List.sum_append, List.sum_cons,
      List.sum_nil] at this
    omega
  simp [removeLast, hcount, retireLast_keep h (ne_of_gt hpos), bind, Except.bind, h1]

theorem Rep.penultimate_pos {lp : LIST α} {pre : List (Addr × Chunk α)} {a b : Addr}
    {c d : Chunk α} (h : Rep lp (pre ++ [(b, d), (a, c)])) (h0 : c.count = 0)
    (hcount : 0 < lp.count) : 0 < d.count := by
  cases pre with
  | nil =>
    have := h.count
    simp only [List.nil_append, List.map_cons, List.sum_cons, List.map_nil, List.sum_nil] at this
    omega
  | cons y ys =>
    have := h.middle (ys.length + 1) (b, d)
      (by
        rw [List.cons_append, List.getElem?_cons_succ,
          List.getElem?_append_right (le_refl _)]
        simp) (by omega) (by simp)
    simp only at this
    omega

theorem removeLast_retire {lp : LIST α} {pre : List (Addr × Chunk α)} {a b : Addr}
    {c d : Chunk α} (h : Rep lp (pre ++ [(b, d), (a, c)])) (h0 : c.count = 0)
    (hcount : 0 < lp.count) :
    ∃ lp2, removeLast lp =
        .ok (d.data.getD ((d.first + d.count - 1) % 8).toNat Ptr.junk, lp2) ∧
      Rep lp2 (pre ++ [(b, popBackC d)]) := by
  obtain ⟨lp2, h1, h2⟩ := takeLast_rep (retireLast_rep h h0) (h.penultimate_pos h0 hcount)
  refine ⟨lp2, ?_, h2⟩
  simp [removeLast, hcount, retireLast_eq h h0, bind, Except.bind, h1]

theorem removeLast_rep {lp : LIST α} {cs : List (Addr × Chunk α)} (h : Rep lp cs)
    (hcount : 0 < lp.count) :
    ∃ v lp2 cs2, removeLast lp = .ok (v, lp2) ∧ Rep lp2 cs2 ∧ absC cs = absC cs2 ++ [v] := by
  rcases List.eq_nil_or_concat cs with e | ⟨pre, x, e⟩
  · exact absurd e h.nonempty
  · obtain ⟨a, c⟩ := x
    rw [List.concat_eq_append] at e
    subst e
    have hc : ChunkOK c := h.ok (a, c) (by simp)
    by_cases h0 : c.count = 0
    · rcases List.eq_nil_or_concat pre with e | ⟨pre2, y, e⟩
      · subst e
        have := h.count
        simp only [List.nil_append, List.map_cons, List.sum_cons, List.map_nil,
          List.sum_nil] at this
        omega
      · obtain ⟨b, d⟩ := y
        rw [List.concat_eq_append] at e
        subst e
        have h2 : Rep lp (pre2 ++ [(b, d), (a, c)]) := by simpa using h
        have hd : ChunkOK d := h2.ok (b, d) (by simp)
        obtain ⟨lp2, h3, h4⟩ := removeLast_retire h2 h0 hcount
        refine ⟨_, lp2, _, h3, h4, ?_⟩
        rw [absC_append, absC_append, absC_append, absC_singleton, absC_singleton,
          absC_singleton, contentsC_of_count_zero h0,
          contentsC_popBackC d hd (h2.penultimate_pos h0 hcount)]
        simp
    · have hpos : 0 < c.count := lt_of_le_of_ne hc.2.2.1 (Ne.symm h0)
      obtain ⟨lp2, h1, h2⟩ := removeLast_keep h hpos
      refine ⟨_, lp2, _, h1, h2, ?_⟩
      rw [absC_append, absC_append, absC_singleton, absC_singleton,
        contentsC_popBackC c hc hpos]
      simp

theorem Rep.mid_full {lp : LIST α} {pre post : List (Addr × Chunk α)} {a : Addr} {c : Chunk α}
    (h : Rep lp (pre ++ (a, c) :: post)) (h1 : pre ≠ []) (h2 : post ≠ []) : c.count = 8 := by
  have := h.middle pre.length (a, c)
    (by rw [List.getElem?_append_right (le_refl _)]; simp)
    (List.length_pos.mpr h1)
    (by
      have := List.length_pos.mpr h2
      simp only [List.length_append, List.length_cons]
      omega)
  exact this

theorem setItemLoop_any {lp lp2 : LIST α} (item : Ptr α) (post : List (Addr × Chunk α)) :
    ∀ (pre : List (Addr × Chunk α)) (fuel : Nat) (k : Int), Rep lp (pre ++ post) →
      setItemLoop lp item fuel k (firstAddr post none) = .ok lp2 → ∃ cs2, Rep lp2 cs2 := by
  induction post with
  | nil =>
    intro pre fuel k h he
    cases fuel with
    | zero => simp [setItemLoop] at he
    | succ fuel =>
      simp only [firstAddr, setItemLoop, pure, Except.pure, Except.ok.injEq] at he
      subst he
      exact ⟨_, h⟩
  | cons x rest ih =>
    obtain ⟨a, c⟩ := x
    intro pre fuel k h he
    cases fuel with
    | zero => simp [setItemLoop] at he
    | succ fuel =>
      simp only [firstAddr, setItemLoop, deref_some h.cell, mkNode, rd, bind, Except.bind, cmod,
        writeSlot] at he
      by_cases hk : k - c.count < 0
      · simp only [hk, if_true] at he
        by_cases hb : 0 ≤ (c.first + k).tmod 8 ∧ (c.first + k).tmod 8 < (c.data.length : Int)
        · simp only [show (8 : Int) ≠ 0 by decide, if_false, hb, and_self, if_true, pure,
            Except.pure, Except.ok.injEq] at he
          subst he
          have hc : ChunkOK c := h.ok (a, c) (by simp)
          have := h.update
            { first := c.first, count := c.count,
              data := c.data.set ((c.first + k).tmod 8).toNat item }
            (by
              obtain ⟨h1, h2, h3, h4, h5⟩ := hc
              exact ⟨h1, h2, h3, h4, by simpa using h5⟩)
            (fun h1 h2 => h.mid_full h1 h2) lp.count (by simp)
          exact ⟨_, this⟩
        · simp [show (8 : Int) ≠ 0 by decide, hb] at he
      · simp only [hk, if_false] at he
        have h2 : Rep lp ((pre ++ [(a, c)]) ++ rest) := by simpa using h
        exact ih (pre ++ [(a, c)]) fuel (k - c.count) h2 he

theorem setItemLoop_rep {lp : LIST α} (item : Ptr α) (post : List (Addr × Chunk α)) :
    ∀ (pre : List (Addr × Chunk α)) (fuel : Nat) (k : Int), Rep lp (pre ++ post) →
      post.length < fuel → 0 ≤ k → k < (post.map (fun x => x.2.count)).sum →
      ∃ lp2 post2, setItemLoop lp item fuel k (firstAddr post none) = .ok lp2 ∧
        Rep lp2 (pre ++ post2) ∧ absC post2 = (absC post).set k.toNat item ∧
        shape post2 = shape post ∧ lp2.count = lp.count ∧ lp2.numNodes = lp.numNodes ∧
        lp2.head = lp.head ∧ lp2.tail = lp.tail := by
  induction post with
  | nil =>
    intro pre fuel k h hf hk0 hk
    simp at hk
    omega
  | cons x rest ih =>
    obtain ⟨a, c⟩ := x
    intro pre fuel k h hf hk0 hk
    have hc : ChunkOK c := h.ok (a, c) (by simp)
    cases fuel with
    | zero => simp at hf
    | succ fuel =>
      by_cases hlt : k - c.count < 0
      · have hkc : k < c.count := by omega
        refine ⟨{ lp with
          mem := lp.mem.set a
            (some (mkNode (setC c k item) (lastAddr none pre) (firstAddr rest none))) },
          (a, setC c k item) :: rest, ?_, ?_, ?_, rfl, rfl, rfl, rfl, rfl⟩
        rotate_left
        · exact h.update (setC c k item)
            (by
              obtain ⟨h1, h2, h3, h4, h5⟩ := hc
              exact ⟨h1, h2, h3, h4, by simpa [setC] using h5⟩)
            (fun h1 h2 => h.mid_full h1 h2) lp.count (by simp [setC])
        · rw [absC_cons, absC_cons, contentsC_setC c k item hc hk0 hkc, List.set_append]
          have : k.toNat < (contentsC c).length := by
            rw [contentsC_length]
            omega
          simp [this]
        · obtain ⟨h1, h2, h3, h4, h5⟩ := hc
          have hm : (c.first + k).tmod 8 = (c.first + k) % 8 :=
            Int.tmod_eq_emod (by omega) (by omega)
          have hb : 0 ≤ (c.first + k) % 8 ∧ (c.first + k) % 8 < (c.data.length : Int) := by
            omega
          simp [firstAddr, setItemLoop, deref_some h.cell, mkNode, rd, bind, Except.bind, cmod,
            writeSlot, hlt, hm, hb, pure, Except.pure, setC]
      · have h2 : Rep lp ((pre ++ [(a, c)]) ++ rest) := by simpa using h
        have hsum : k - c.count < (rest.map (fun x => x.2.count)).sum := by
          simp only [List.map_cons, List.sum_cons] at hk
          omega
        obtain ⟨lp2, post2, e1, e2, e3, e4, e5⟩ :=
          ih (pre ++ [(a, c)]) fuel (k - c.count) h2 (by simpa using hf) (by omega) hsum
        refine ⟨lp2, (a, c) :: post2, ?_, by simpa using e2, ?_, ?_, e5⟩
        · simp only [firstAddr, setItemLoop, deref_some h.cell, mkNode, rd, bind, Except.bind,
            hlt, if_false]
          exact e1
        · rw [absC_cons, absC_cons, e3, List.set_append]
          have hl : (contentsC c).length = c.count.toNat := contentsC_length c
          have hge : ¬ k.toNat < (contentsC c).length := by
            rw [hl]
            have := hc.2.2.1
            omega
          have he : k.toNat - (contentsC c).length = (k - c.count).toNat := by
            rw [hl]
            have := hc.2.2.1
            omega
          simp [hge, he]
        · simp only [shape, List.map_cons] at e4 ⊢
          rw [e4]

theorem firstAddr_shape {cs cs2 : List (Addr × Chunk α)} (h : shape cs2 = shape cs)
    (nx : Option Addr) : firstAddr cs2 nx = firstAddr cs nx := by
  cases cs with
  | nil =>
    cases cs2 with
    | nil => rfl
    | cons y ys => simp [shape] at h
  | cons x xs =>
    cases cs2 with
    | nil => simp [shape] at h
    | cons y ys =>
      obtain ⟨a, c⟩ := x
      obtain ⟨b, d⟩ := y
      simp only [shape, List.map_cons, List.cons.injEq, Prod.mk.injEq] at h
      simp [firstAddr, h.1.1]

theorem toNodes_shape {cs cs2 : List (Addr × Chunk α)} (h : shape cs2 = shape cs)
    (p : Option Addr) :
    (toNodes p cs2).map (fun x => (x.1, x.2.first, x.2.count, x.2.length, x.2.next, x.2.prev)) =
      (toNodes p cs).map
        (fun x => (x.1, x.2.first, x.2.count, x.2.length, x.2.next, x.2.prev)) := by
  induction cs generalizing cs2 p with
  | nil =>
    cases cs2 with
    | nil => rfl
    | cons y ys => simp [shape] at h
  | cons x xs ih =>
    cases cs2 with
    | nil => simp [shape] at h
    | cons y ys =>
      obtain ⟨a, c⟩ := x
      obtain ⟨b, d⟩ := y
      simp only [shape, List.map_cons, List.cons.injEq, Prod.mk.injEq] at h
      obtain ⟨⟨rfl, hf, hc⟩, hrest⟩ := h
      have hrest2 : shape ys = shape xs := hrest
      simp only [toNodes, List.map_cons, mkNode, hf, hc, firstAddr_shape hrest2, ih hrest2]

theorem Inv.abs_length {lp : LIST α} (h : Inv lp) : ((abs lp).length : Int) = lp.count := by
  rcases h with rfl | ⟨cs, h⟩
  · rw [abs_createList]
    rfl
  · rw [h.abs_eq]
    exact h.absC_length

theorem Inv.numItems_nonneg {lp : LIST α} (h : Inv lp) : 0 ≤ lp.count := by
  rw [← h.abs_length]
  omega

theorem addLast_rep {lp : LIST α} {cs : List (Addr × Chunk α)} (h : Rep lp cs) (item : Ptr α)
    (hi : item.isNull = false) :
    ∃ lp2 cs2, addLast lp item = .ok lp2 ∧ Rep lp2 cs2 ∧ absC cs2 = absC cs ++ [item] := by
  rcases List.eq_nil_or_concat cs with e | ⟨pre, x, e⟩
  · exact absurd e h.nonempty
  · obtain ⟨a, c⟩ := x
    rw [List.concat_eq_append] at e
    subst e
    have hc : ChunkOK c := h.ok (a, c) (by simp)
    by_cases hfull : c.count = 8
    · obtain ⟨lp2, h1, h2⟩ := addLast_full h item hi hfull
      refine ⟨lp2, _, h1, h2, ?_⟩
      rw [show pre ++ [(a, c), (lp.mem.length, pushC emptyC item)] =
        (pre ++ [(a, c)]) ++ [(lp.mem.length, pushC emptyC item)] by simp]
      rw [absC_append, absC_singleton, contentsC_push_emptyC]
    · obtain ⟨lp2, h1, h2⟩ := addLast_room h item hi hfull
      refine ⟨lp2, _, h1, h2, ?_⟩
      rw [absC_append, absC_append, absC_singleton, absC_singleton,
        contentsC_pushC c item hc (lt_of_le_of_ne hc.2.2.2.1 hfull), List.append_assoc]

theorem addFirst_rep {lp : LIST α} {cs : List (Addr × Chunk α)} (h : Rep lp cs) (item : Ptr α)
    (hi : item.isNull = false) :
    ∃ lp2 cs2, addFirst lp item = .ok lp2 ∧ Rep lp2 cs2 ∧ lp2.count = lp.count + 1 := by
  cases cs with
  | nil => exact absurd rfl h.nonempty
  | cons x post =>
    obtain ⟨a, c⟩ := x
    by_cases hfull : c.count = 8
    · obtain ⟨lp2, h1, h2⟩ := addFirst_full h item hi hfull
      refine ⟨lp2, _, h1, h2, ?_⟩
      have e1 := h.count
      have e2 := h2.count
      simp only [List.map_cons, List.sum_cons, pushC, firstC] at e1 e2
      omega
    · obtain ⟨lp2, h1, h2⟩ := addFirst_room h item hi hfull
      refine ⟨lp2, _, h1, h2, ?_⟩
      have e1 := h.count
      have e2 := h2.count
      simp only [List.map_cons, List.sum_cons, pushC] at e1 e2
      omega

theorem inv_addLast {lp : LIST α} (h : Inv lp) (item : Ptr α) (hi : item ≠ Ptr.null) :
    ∃ lp2, addLast lp item = .ok lp2 ∧ Inv lp2 ∧ abs lp2 = abs lp ++ [item] := by
  have hn := isNull_eq_false hi
  rcases h with rfl | ⟨cs, h⟩
  · obtain ⟨lp2, h1, h2⟩ := addLast_fresh item hn
    refine ⟨lp2, h1, Or.inr ⟨_, h2⟩, ?_⟩
    rw [h2.abs_eq, abs_createList, absC_singleton, contentsC_push_emptyC]
    rfl
  · obtain ⟨lp2, cs2, h1, h2, h3⟩ := addLast_rep h item hn
    refine ⟨lp2, h1, Or.inr ⟨_, h2⟩, ?_⟩
    rw [h2.abs_eq, h.abs_eq, h3]

theorem inv_addFirst {lp : LIST α} (h : Inv lp) (item : Ptr α) (hi : item ≠ Ptr.null) :
    ∃ lp2, addFirst lp item = .ok lp2 ∧ Inv lp2 ∧ lp2.count = lp.count + 1 := by
  have hn := isNull_eq_false hi
  rcases h with rfl | ⟨cs, h⟩
  · obtain ⟨lp2, h1, h2⟩ := addFirst_fresh item hn
    refine ⟨lp2, h1, Or.inr ⟨_, h2⟩, ?_⟩
    rw [h2.count]
    rfl
  · obtain ⟨lp2, cs2, h1, h2, h3⟩ := addFirst_rep h item hn
    exact ⟨lp2, h1, Or.inr ⟨_, h2⟩, h3⟩

theorem inv_removeFirst {lp : LIST α} (h : Inv lp) (hc : 0 < lp.count) :
    ∃ v lp2, removeFirst lp = .ok (v, lp2) ∧ Inv lp2 ∧ abs lp = v :: abs lp2 := by
  rcases h with rfl | ⟨cs, h⟩
  · exact absurd hc (lt_irrefl (0 : Int))
  · obtain ⟨v, lp2, cs2, h1, h2, h3⟩ := removeFirst_rep h hc
    refine ⟨v, lp2, h1, Or.inr ⟨_, h2⟩, ?_⟩
    rw [h2.abs_eq, h.abs_eq, h3]

theorem inv_removeLast {lp : LIST α} (h : Inv lp) (hc : 0 < lp.count) :
    ∃ v lp2, removeLast lp = .ok (v, lp2) ∧ Inv lp2 ∧ abs lp = abs lp2 ++ [v] := by
  rcases h with rfl | ⟨cs, h⟩
  · exact absurd hc (lt_irrefl (0 : Int))
  · obtain ⟨v, lp2, cs2, h1, h2, h3⟩ := removeLast_rep h hc
    refine ⟨v, lp2, h1, Or.inr ⟨_, h2⟩, ?_⟩
    rw [h2.abs_eq, h.abs_eq, h3]

theorem inv_setItem {lp : LIST α} (h : Inv lp) (index : Int) (item : Ptr α)
    (hi : item ≠ Ptr.null) (h0 : 0 ≤ index) (h1 : index < lp.count) :
    ∃ lp2, setItem lp index item = .ok lp2 ∧ Inv lp2 ∧
      abs lp2 = (abs lp).set index.toNat item ∧ layout lp2 = layout lp ∧
      lp2.count = lp.count ∧ lp2.numNodes = lp.numNodes ∧ lp2.head = lp.head ∧
      lp2.tail = lp.tail := by
  have hn := isNull_eq_false hi
  rcases h with rfl | ⟨cs, h⟩
  · have : (createList : LIST α).count = 0 := rfl
    omega
  · have hr : Rep lp ([] ++ cs) := h
    obtain ⟨lp2, post2, e1, e2, e3, e4, e5⟩ :=
      setItemLoop_rep item cs [] (lp.mem.length + 1) index hr
        (Nat.lt_succ_of_le h.length_le) h0 (by rw [← h.count]; exact h1)
    have e2b : Rep lp2 post2 := e2
    refine ⟨lp2, ?_, Or.inr ⟨_, e2b⟩, ?_, ?_, e5⟩
    · simp only [setItem, hn, Bool.false_eq_true, if_false, h.head]
      exact e1
    · rw [e2b.abs_eq, h.abs_eq, e3]
    · unfold layout
      rw [e2b.nodes_eq, h.nodes_eq]
      exact toNodes_shape e4 none

theorem setItem_fresh (index : Int) (item : Ptr α) (lp2 : LIST α) :
    setItem (createList : LIST α) index item ≠ .ok lp2 := by
  cases hn : item.isNull <;>
    simp [setItem, hn, setItemLoop, createList, deref, rd, bind, Except.bind]

theorem inv_setItem_any {lp lp2 : LIST α} (h : Inv lp) {index : Int} {item : Ptr α}
    (he : setItem lp index item = .ok lp2) : Inv lp2 := by
  rcases h with rfl | ⟨cs, h⟩
  · exact absurd he (setItem_fresh index item lp2)
  · have hr : Rep lp ([] ++ cs) := h
    cases hn : item.isNull with
    | true => simp [setItem, hn] at he
    | false =>
      simp only [setItem, hn, Bool.false_eq_true, if_false, h.head] at he
      obtain ⟨cs2, h2⟩ := setItemLoop_any item cs [] _ index hr he
      exact Or.inr ⟨cs2, h2⟩

theorem addLast_ok_nonnull {lp lp2 : LIST α} {item : Ptr α} (he : addLast lp item = .ok lp2) :
    item ≠ Ptr.null := by
  rintro rfl
  simp [addLast, Ptr.isNull] at he

theorem addFirst_ok_nonnull {lp lp2 : LIST α} {item : Ptr α}
    (he : addFirst lp item = .ok lp2) : item ≠ Ptr.null := by
  rintro rfl
  simp [addFirst, Ptr.isNull] at he

theorem removeFirst_ok_pos {lp lp2 : LIST α} {v : Ptr α}
    (he : removeFirst lp = .ok (v, lp2)) : 0 < lp.count := by
  by_contra hc
  simp [removeFirst, hc] at he

theorem removeLast_ok_pos {lp lp2 : LIST α} {v : Ptr α}
    (he : removeLast lp = .ok (v, lp2)) : 0 < lp.count := by
  by_contra hc
  simp [removeLast, hc] at he

theorem reachable_inv {lp : LIST α} (h : Reachable lp) : Inv lp := by
  induction h with
  | create => exact Or.inl rfl
  | addFirst _ he ih =>
    obtain ⟨lp3, h1, h2, _⟩ := inv_addFirst ih _ (addFirst_ok_nonnull he)
    rw [he] at h1
    cases h1
    exact h2
  | addLast _ he ih =>
    obtain ⟨lp3, h1, h2, _⟩ := inv_addLast ih _ (addLast_ok_nonnull he)
    rw [he] at h1
    cases h1
    exact h2
  | removeFirst _ he ih =>
    obtain ⟨v, lp3, h1, h2, _⟩ := inv_removeFirst ih (removeFirst_ok_pos he)
    rw [he] at h1
    cases h1
    exact h2
  | removeLast _ he ih =>
    obtain ⟨v, lp3, h1, h2, _⟩ := inv_removeLast ih (removeLast_ok_pos he)
    rw [he] at h1
    cases h1
    exact h2
  | setItem _ he ih => exact inv_setItem_any ih he

theorem reachableQ_reachable {lp : LIST α} (h : ReachableQ lp) : Reachable lp := by
  induction h with
  | create => exact Reachable.create
  | addLast _ he ih => exact Reachable.addLast ih he
  | removeFirst _ he ih => exact Reachable.removeFirst ih he
  | removeLast _ he ih => exact Reachable.removeLast ih he

theorem addLastAll_inv (xs : List (Ptr α)) :
    ∀ lp : LIST α, Inv lp → (∀ x ∈ xs, x ≠ Ptr.null) →
      ∃ lp2, addLastAll lp xs = .ok lp2 ∧ Inv lp2 ∧ abs lp2 = abs lp ++ xs := by
  induction xs with
  | nil => intro lp h _; exact ⟨lp, rfl, h, by simp⟩
  | cons x xs ih =>
    intro lp h hx
    obtain ⟨lp1, h1, h2, h3⟩ := inv_addLast h x (hx x (by simp))
    obtain ⟨lp2, h4, h5, h6⟩ := ih lp1 h2 (fun y hy => hx y (by simp [hy]))
    refine ⟨lp2, ?_, h5, ?_⟩
    · simp only [addLastAll, h1]
      exact h4
    · rw [h6, h3]
      simp

theorem removeFirstN_inv (xs : List (Ptr α)) :
    ∀ (lp : LIST α) (ys : List (Ptr α)), Inv lp → abs lp = xs ++ ys →
      ∃ lp2, removeFirstN xs.length lp = .ok (xs, lp2) ∧ Inv lp2 ∧ abs lp2 = ys := by
  induction xs with
  | nil => intro lp ys h he; exact ⟨lp, rfl, h, by simpa using he⟩
  | cons x xs ih =>
    intro lp ys h he
    have hc : 0 < lp.count := by
      rw [← h.abs_length, he]
      simp
      omega
    obtain ⟨v, lp1, h1, h2, h3⟩ := inv_removeFirst h hc
    rw [he] at h3
    simp only [List.cons_append, List.cons.injEq] at h3
    obtain ⟨rfl, h3⟩ := h3
    obtain ⟨lp2, h4, h5, h6⟩ := ih lp1 ys h2 h3.symm
    refine ⟨lp2, ?_, h5, h6⟩
    simp only [List.length_cons, removeFirstN, h1, h4]

/-- C1 (FIFO): for every list `xs` of non-null items, the calls `addLast` on each
item in order from `createList` all return, and `xs.length` calls of
`removeFirst` then return exactly `xs`, in the order pushed; the length is
arbitrary, so any number of 8-slot nodes is crossed. -/
theorem addLast_removeFirst_fifo (xs : List (Ptr α)) (hx : ∀ x ∈ xs, x ≠ Ptr.null) :
    ∃ lp lp2, addLastAll (createList : LIST α) xs = .ok lp ∧
      removeFirstN xs.length lp = .ok (xs, lp2) := by
  obtain ⟨lp, h1, h2, h3⟩ := addLastAll_inv xs createList (Or.inl rfl) hx
  rw [abs_createList, List.nil_append] at h3
  obtain ⟨lp2, h4, _, _⟩ := removeFirstN_inv xs lp [] h2 (by simpa using h3)
  exact ⟨lp, lp2, h1, h4⟩

theorem addLast_removeFirst_fifo_witness :
    (∀ x ∈ tenItems, x ≠ Ptr.null) ∧
      ∃ lp lp2, addLastAll (createList : LIST Nat) tenItems = .ok lp ∧
        removeFirstN tenItems.length lp = .ok (tenItems, lp2) :=
  ⟨by decide, addLast_removeFirst_fifo tenItems (by decide)⟩

/-- C2 (code): three calls of `addFirst` with the items 1, 2, 3 followed by three
calls of `removeFirst` return 1, 2, 3, the order pushed, not the reverse:
`addFirst` writes behind the last element of the head node. -/
theorem addFirst_removeFirst_same_order :
    ∃ lp lp2, addFirstAll (createList : LIST Nat) [Ptr.item 1, Ptr.item 2, Ptr.item 3] = .ok lp ∧
      removeFirstN 3 lp = .ok ([Ptr.item 1, Ptr.item 2, Ptr.item 3], lp2) :=
  ⟨_, _, rfl, rfl⟩

/-- C3 (code): after `addFirst` of 1 and then of 2 the new item 2 is at logical
position 1, behind the element 1 that was there, and `first` of the head node
is still 0: it was not moved back. -/
theorem addFirst_appends_to_head_node :
    ∃ lp, addFirstAll (createList : LIST Nat) [Ptr.item 1, Ptr.item 2] = .ok lp ∧
      abs lp = [Ptr.item 1, Ptr.item 2] ∧
      layout lp = [(1, some 0, some 2, some 8, none, none)] :=
  ⟨_, rfl, rfl, rfl⟩

/-- C4 (refinement): in every state reached from `createList` by `addLast`,
`removeFirst` and `removeLast`, `addLast` of a non-null item returns a state
whose `abs` is the old one with the item appended; with `0 < numItems`,
`removeFirst` returns the first element of `abs` and leaves the rest, and
`removeLast` returns the last element of `abs` and leaves the rest. -/
theorem queue_ops_simulate_list (lp : LIST α) (hr : ReachableQ lp) :
    (∀ item : Ptr α, item ≠ Ptr.null →
      ∃ lp2, addLast lp item = .ok lp2 ∧ abs lp2 = abs lp ++ [item]) ∧
    (0 < numItems lp → ∃ v lp2, removeFirst lp = .ok (v, lp2) ∧ abs lp = v :: abs lp2) ∧
    (0 < numItems lp → ∃ v lp2, removeLast lp = .ok (v, lp2) ∧ abs lp = abs lp2 ++ [v]) := by
  have h := reachable_inv (reachableQ_reachable hr)
  refine ⟨?_, ?_, ?_⟩
  · intro item hi
    obtain ⟨lp2, h1, _, h3⟩ := inv_addLast h item hi
    exact ⟨lp2, h1, h3⟩
  · intro hc
    obtain ⟨v, lp2, h1, _, h3⟩ := inv_removeFirst h hc
    exact ⟨v, lp2, h1, h3⟩
  · intro hc
    obtain ⟨v, lp2, h1, _, h3⟩ := inv_removeLast h hc
    exact ⟨v, lp2, h1, h3⟩

theorem addLastAll_reachableQ (xs : List (Ptr α)) :
    ∀ lp lp2 : LIST α, ReachableQ lp → addLastAll lp xs = .ok lp2 → ReachableQ lp2 := by
  induction xs with
  | nil =>
    intro lp lp2 h he
    simp only [addLastAll, Except.ok.injEq] at he
    exact he ▸ h
  | cons x xs ih =>
    intro lp lp2 h he
    simp only [addLastAll] at he
    cases h1 : addLast lp x with
    | error e => simp [h1] at he
    | ok lp1 =>
      rw [h1] at he
      exact ih lp1 lp2 (ReachableQ.addLast h h1) he

theorem removeFirstN_reachableQ (n : Nat) :
    ∀ (lp lp2 : LIST α) (vs : List (Ptr α)), ReachableQ lp →
      removeFirstN n lp = .ok (vs, lp2) → ReachableQ lp2 := by
  induction n with
  | zero =>
    intro lp lp2 vs h he
    simp only [removeFirstN, Except.ok.injEq, Prod.mk.injEq] at he
    exact he.2 ▸ h
  | succ n ih =>
    intro lp lp2 vs h he
    simp only [removeFirstN] at he
    cases h1 : removeFirst lp with
    | error e => simp [h1] at he
    | ok r =>
      obtain ⟨v, lp1⟩ := r
      simp only [h1] at he
      cases h2 : removeFirstN n lp1 with
      | error e => simp [h2] at he
      | ok r2 =>
        obtain ⟨ws, lp3⟩ := r2
        simp only [h2, Except.ok.injEq, Prod.mk.injEq] at he
        exact he.2 ▸ ih lp1 lp3 ws (ReachableQ.removeFirst h h1) h2

theorem drainedHead_run :
    ∃ lp, addLastAll (createList : LIST Nat) nineItems = .ok lp ∧
      removeFirstN 8 lp = .ok (nineItems.take 8, drainedHead) :=
  ⟨_, rfl, rfl⟩

theorem drainedHead_reachableQ : ReachableQ drainedHead := by
  obtain ⟨lp, h1, h2⟩ := drainedHead_run
  exact removeFirstN_reachableQ 8 lp _ _ (addLastAll_reachableQ _ _ lp ReachableQ.create h1) h2

theorem queue_ops_simulate_list_witness :
    ReachableQ drainedHead ∧ 0 < numItems drainedHead ∧
    (∃ lp2, addLast drainedHead (Ptr.item 10) = .ok lp2 ∧
      abs lp2 = abs drainedHead ++ [Ptr.item 10]) ∧
    (∃ v lp2, removeFirst drainedHead = .ok (v, lp2) ∧ abs drainedHead = v :: abs lp2) ∧
    (∃ v lp2, removeLast drainedHead = .ok (v, lp2) ∧ abs drainedHead = abs lp2 ++ [v]) :=
  ⟨drainedHead_reachableQ, by decide,
    (queue_ops_simulate_list drainedHead drainedHead_reachableQ).1 (Ptr.item 10) (by decide),
    (queue_ops_simulate_list drainedHead drainedHead_reachableQ).2.1 (by decide),
    (queue_ops_simulate_list drainedHead drainedHead_reachableQ).2.2 (by decide)⟩

theorem step_inv {lp lp2 : LIST α} (h : Inv lp) (op : Op α) (he : step lp op = .ok lp2) :
    Inv lp2 ∧ lp2.count = lp.count + pushes [op] - pops [op] := by
  cases op with
  | pushFront x =>
    obtain ⟨lp3, h1, h2, h3⟩ := inv_addFirst h x (addFirst_ok_nonnull he)
    have : addFirst lp x = .ok lp2 := he
    rw [this] at h1
    cases h1
    exact ⟨h2, by simp [pushes, pops, h3]⟩
  | pushBack x =>
    obtain ⟨lp3, h1, h2, h3⟩ := inv_addLast h x (addLast_ok_nonnull he)
    have : addLast lp x = .ok lp2 := he
    rw [this] at h1
    cases h1
    refine ⟨h2, ?_⟩
    have e1 := h2.abs_length
    have e2 := h.abs_length
    rw [h3] at e1
    simp only [List.length_append, List.length_singleton, Nat.cast_add, Nat.cast_one] at e1
    simp only [pushes, pops]
    omega
  | popFront =>
    have he2 : (removeFirst lp).map Prod.snd = .ok lp2 := he
    cases hr : removeFirst lp with
    | error e => simp [hr, Except.map] at he2
    | ok r =>
      obtain ⟨v, lp3⟩ := r
      simp only [hr, Except.map, Except.ok.injEq] at he2
      subst he2
      obtain ⟨v2, lp4, h1, h2, h3⟩ := inv_removeFirst h (removeFirst_ok_pos hr)
      rw [hr] at h1
      cases h1
      refine ⟨h2, ?_⟩
      have e1 := h2.abs_length
      have e2 := h.abs_length
      rw [h3] at e2
      simp only [List.length_cons, Nat.cast_add, Nat.cast_one] at e2
      simp only [pushes, pops]
      omega
  | popBack =>
    have he2 : (removeLast lp).map Prod.snd = .ok lp2 := he
    cases hr : removeLast lp with
    | error e => simp [hr, Except.map] at he2
    | ok r =>
      obtain ⟨v, lp3⟩ := r
      simp only [hr, Except.map, Except.ok.injEq] at he2
      subst he2
      obtain ⟨v2, lp4, h1, h2, h3⟩ := inv_removeLast h (removeLast_ok_pos hr)
      rw [hr] at h1
      cases h1
      refine ⟨h2, ?_⟩
      have e1 := h2.abs_length
      have e2 := h.abs_length
      rw [h3] at e2
      simp only [List.length_append, List.length_singleton, Nat.cast_add, Nat.cast_one] at e2
      simp only [pushes, pops]
      omega

theorem pushes_cons (op : Op α) (ops : List (Op α)) :
    pushes (op :: ops) = pushes [op] + pushes ops := by
  cases op <;> simp [pushes] <;> omega

theorem pops_cons (op : Op α) (ops : List (Op α)) :
    pops (op :: ops) = pops [op] + pops ops := by
  cases op <;> simp [pops] <;> omega

theorem run_count (ops : List (Op α)) :
    ∀ lp lp2 : LIST α, Inv lp → run lp ops = .ok lp2 →
      lp2.count = lp.count + pushes ops - pops ops := by
  induction ops with
  | nil =>
    intro lp lp2 _ he
    simp only [run, Except.ok.injEq] at he
    subst he
    simp [pushes, pops]
  | cons op ops ih =>
    intro lp lp2 h he
    simp only [run] at he
    cases hs : step lp op with
    | error e => simp [hs] at he
    | ok lp1 =>
      rw [hs] at he
      obtain ⟨h1, h2⟩ := step_inv h op hs
      have h3 := ih lp1 lp2 h1 he
      rw [pushes_cons, pops_cons]
      omega

theorem step_legal {lp : LIST α} (h : Inv lp) (op : Op α) (ops : List (Op α))
    (hl : Legal lp.count (op :: ops)) :
    ∃ lp2, step lp op = .ok lp2 ∧ Inv lp2 ∧ Legal lp2.count ops := by
  cases op with
  | pushFront x =>
    obtain ⟨hx, hl2⟩ := hl
    obtain ⟨lp2, h1, h2, h3⟩ := inv_addFirst h x hx
    exact ⟨lp2, h1, h2, h3 ▸ hl2⟩
  | pushBack x =>
    obtain ⟨hx, hl2⟩ := hl
    obtain ⟨lp2, h1, h2, _⟩ := inv_addLast h x hx
    have := (step_inv h (Op.pushBack x) h1).2
    simp only [pushes, pops] at this
    refine ⟨lp2, h1, h2, ?_⟩
    rw [show lp2.count = lp.count + 1 by omega]
    exact hl2
  | popFront =>
    obtain ⟨hc, hl2⟩ := hl
    obtain ⟨v, lp2, h1, h2, _⟩ := inv_removeFirst h hc
    have hs : step lp Op.popFront = .ok lp2 := by simp [step, h1, Except.map]
    have := (step_inv h Op.popFront hs).2
    simp only [pushes, pops] at this
    refine ⟨lp2, hs, h2, ?_⟩
    rw [show lp2.count = lp.count - 1 by omega]
    exact hl2
  | popBack =>
    obtain ⟨hc, hl2⟩ := hl
    obtain ⟨v, lp2, h1, h2, _⟩ := inv_removeLast h hc
    have hs : step lp Op.popBack = .ok lp2 := by simp [step, h1, Except.map]
    have := (step_inv h Op.popBack hs).2
    simp only [pushes, pops] at this
    refine ⟨lp2, hs, h2, ?_⟩
    rw [show lp2.count = lp.count - 1 by omega]
    exact hl2

theorem run_legal (ops : List (Op α)) :
    ∀ lp : LIST α, Inv lp → Legal lp.count ops → ∃ lp2, run lp ops = .ok lp2 := by
  induction ops with
  | nil => intro lp _ _; exact ⟨lp, rfl⟩
  | cons op ops ih =>
    intro lp h hl
    obtain ⟨lp1, h1, h2, h3⟩ := step_legal h op ops hl
    obtain ⟨lp2, h4⟩ := ih lp1 h2 h3
    exact ⟨lp2, by simp only [run, h1]; exact h4⟩

/-- C5 (size): whenever a sequence of `addFirst`, `addLast`, `removeFirst` and
`removeLast` calls issued from `createList` returns, `numItems` of the final
state is the number of pushes minus the number of pops; and the sequence does
return when every push has a non-null item and every pop is issued with an
element left. -/
theorem numItems_eq_pushes_sub_pops (ops : List (Op α)) :
    (∀ lp : LIST α, run createList ops = .ok lp → numItems lp = pushes ops - pops ops) ∧
    (Legal 0 ops → ∃ lp : LIST α, run createList ops = .ok lp) := by
  refine ⟨?_, ?_⟩
  · intro lp he
    have := run_count ops createList lp (Or.inl rfl) he
    simpa [numItems, createList] using this
  · intro hl
    exact run_legal ops createList (Or.inl rfl) hl

theorem numItems_eq_pushes_sub_pops_witness :
    Legal 0 mixedOps ∧ ∃ lp : LIST Nat, run createList mixedOps = .ok lp ∧ numItems lp = 4 := by
  have hl : Legal 0 mixedOps := by simp [mixedOps, Legal]
  obtain ⟨lp, h⟩ := (numItems_eq_pushes_sub_pops mixedOps).2 hl
  exact ⟨hl, lp, h, (numItems_eq_pushes_sub_pops mixedOps).1 lp h⟩

/-- C6 (code): in the state `drainedHead` (items 1..9 pushed at the back, eight
popped at the front) the sequence holds the single element 9 and index 0 is
valid, but the loop of `getItem` ends by its condition at the tail node with
`x` never assigned, and the call reads the unassigned `x`. -/
theorem getItem_drained_head_reads_unassigned :
    ReachableQ drainedHead ∧ numItems drainedHead = 1 ∧ abs drainedHead = [Ptr.item 9] ∧
      getItemLoop drainedHead (drainedHead.mem.length + 1) 0 0 drainedHead.head =
        .ok (some 2, none) ∧
      getItem drainedHead 0 = .error .uninit :=
  ⟨drainedHead_reachableQ, rfl, rfl, rfl, rfl⟩

/-- C7 (code): in the state `drainedHead`, `setItem` at the valid index 0 writes the
new item to logical position 0, and `getItem` at index 0 of the resulting state
does not return it: it reads the unassigned `x`. -/
theorem setItem_getItem_drained_head :
    ∃ lp2, setItem drainedHead 0 (Ptr.item 42) = .ok lp2 ∧ abs lp2 = [Ptr.item 42] ∧
      getItem lp2 0 = .error .uninit :=
  ⟨_, rfl, rfl, rfl⟩

/-- C8 (frame): in every reachable state, for `0 ≤ index < numItems` and a
non-null `v`, `setItem` returns a state with the same `numItems`, `numNodes`,
head and tail, the same address, `first`, `count`, `length` and links of
every node, the element `v` at logical position `index`, and the old element
at every other logical position. -/
theorem setItem_point_update (lp : LIST α) (hr : Reachable lp) (index : Int) (v : Ptr α)
    (hv : v ≠ Ptr.null) (h0 : 0 ≤ index) (h1 : index < numItems lp) :
    ∃ lp2, setItem lp index v = .ok lp2 ∧ numItems lp2 = numItems lp ∧
      lp2.numNodes = lp.numNodes ∧ lp2.head = lp.head ∧ lp2.tail = lp.tail ∧
      layout lp2 = layout lp ∧ (abs lp2).length = (abs lp).length ∧
      (abs lp2)[index.toNat]? = some v ∧
      ∀ j : Nat, j ≠ index.toNat → (abs lp2)[j]? = (abs lp)[j]? := by
  have h := reachable_inv hr
  obtain ⟨lp2, e1, _, e3, e4, e5, e6, e7, e8⟩ := inv_setItem h index v hv h0 h1
  have hlen : index.toNat < (abs lp).length := by
    have := h.abs_length
    have h1b : index < lp.count := h1
    omega
  refine ⟨lp2, e1, e5, e6, e7, e8, e4, by rw [e3]; simp, ?_, ?_⟩
  · rw [e3, List.getElem?_set_self hlen]
  · intro j hj
    rw [e3, List.getElem?_set_ne (Ne.symm hj)]

theorem setItem_point_update_witness :
    ∃ lp2, setItem drainedHead 0 (Ptr.item 42) = .ok lp2 ∧
      numItems lp2 = numItems drainedHead ∧
      lp2.numNodes = drainedHead.numNodes ∧ lp2.head = drainedHead.head ∧
      lp2.tail = drainedHead.tail ∧
      layout lp2 = layout drainedHead ∧ (abs lp2).length = (abs drainedHead).length ∧
      (abs lp2)[(0 : Int).toNat]? = some (Ptr.item 42) ∧
      ∀ j : Nat, j ≠ (0 : Int).toNat → (abs lp2)[j]? = (abs drainedHead)[j]? :=
  setItem_point_update drainedHead (reachableQ_reachable drainedHead_reachableQ) 0 (Ptr.item 42)
    (by decide) (by decide) (by decide)

/-- C9 (code): with the single element 1, `getFirst` dereferences the missing
`next` of the head node and `getLast` returns the address of the `data` array
of the tail node, not the element; with the elements 1..9, `getFirst` returns
the `data` array of the second node while the first element is 1. Neither
call returns the element at the front or at the back. -/
theorem getFirst_getLast_not_the_element :
    (∃ lp, addLastAll (createList : LIST Nat) [Ptr.item 1] = .ok lp ∧
      abs lp = [Ptr.item 1] ∧ getFirst lp = .error .nullDeref ∧
      getLast lp = .ok (Ptr.buffer 1)) ∧
    (∃ lp, addLastAll (createList : LIST Nat) nineItems = .ok lp ∧
      (abs lp)[0]? = some (Ptr.item 1) ∧ (abs lp)[8]? = some (Ptr.item 9) ∧
      getFirst lp = .ok (Ptr.buffer 2) ∧ getLast lp = .ok (Ptr.buffer 2)) :=
  ⟨⟨_, rfl, rfl, rfl, rfl⟩, ⟨_, rfl, rfl, rfl, rfl, rfl⟩⟩

/-- C10 (empty): in every reachable state `removeFirst` and `removeLast` fail on
their assertion exactly when `numItems` is 0, and both return a value
whenever `numItems` is not 0 (it is never negative). -/
theorem remove_fails_iff_empty (lp : LIST α) (hr : Reachable lp) :
    (removeFirst lp = .error .assertion ↔ numItems lp = 0) ∧
    (removeLast lp = .error .assertion ↔ numItems lp = 0) ∧
    0 ≤ numItems lp ∧
    (numItems lp ≠ 0 →
      (∃ v lp2, removeFirst lp = .ok (v, lp2)) ∧ ∃ v lp2, removeLast lp = .ok (v, lp2)) := by
  have h := reachable_inv hr
  have hnn : 0 ≤ lp.count := h.numItems_nonneg
  have hok : lp.count ≠ 0 →
      (∃ v lp2, removeFirst lp = .ok (v, lp2)) ∧ ∃ v lp2, removeLast lp = .ok (v, lp2) := by
    intro hne
    have hc : 0 < lp.count := lt_of_le_of_ne hnn (Ne.symm hne)
    obtain ⟨v, lp2, e1, _⟩ := inv_removeFirst h hc
    obtain ⟨w, lp3, e2, _⟩ := inv_removeLast h hc
    exact ⟨⟨v, lp2, e1⟩, ⟨w, lp3, e2⟩⟩
  refine ⟨⟨?_, ?_⟩, ⟨?_, ?_⟩, hnn, hok⟩
  · intro he
    by_contra hne
    obtain ⟨⟨v, lp2, e1⟩, _⟩ := hok hne
    rw [e1] at he
    cases he
  · intro hz
    have hz2 : lp.count = 0 := hz
    simp [removeFirst, hz2]
  · intro he
    by_contra hne
    obtain ⟨_, ⟨v, lp2, e1⟩⟩ := hok hne
    rw [e1] at he
    cases he
  · intro hz
    have hz2 : lp.count = 0 := hz
    simp [removeLast, hz2]

theorem remove_fails_iff_empty_witness :
    (removeFirst (createList : LIST Nat) = .error .assertion ∧
      removeLast (createList : LIST Nat) = .error .assertion) ∧
    ∃ lp lp2, addLastAll (createList : LIST Nat) nineItems = .ok lp ∧
      removeFirstN 9 lp = .ok (nineItems, lp2) ∧
      removeFirst lp2 = .error .assertion ∧ removeLast lp2 = .error .assertion ∧
      (∃ v lp3, removeFirst lp = .ok (v, lp3)) ∧ ∃ v lp3, removeLast lp = .ok (v, lp3) := by
  refine ⟨⟨(remove_fails_iff_empty createList Reachable.create).1.mpr rfl,
    (remove_fails_iff_empty createList Reachable.create).2.1.mpr rfl⟩, ?_⟩
  obtain ⟨lp, lp2, h1, h2⟩ : ∃ lp lp2, addLastAll (createList : LIST Nat) nineItems = .ok lp ∧
      removeFirstN 9 lp = .ok (nineItems, lp2) := ⟨_, _, rfl, rfl⟩
  have hr1 : Reachable lp :=
    reachableQ_reachable (addLastAll_reachableQ _ _ lp ReachableQ.create h1)
  have hr2 : Reachable lp2 :=
    reachableQ_reachable (removeFirstN_reachableQ 9 lp lp2 _
      (addLastAll_reachableQ _ _ lp ReachableQ.create h1) h2)
  have hz : numItems lp2 = 0 := by
    have := removeFirstN_inv nineItems lp [] (reachable_inv hr1)
      (by
        obtain ⟨lp9, e1, _, e3⟩ := addLastAll_inv nineItems (createList : LIST Nat)
          (Or.inl rfl) (by decide)
        rw [h1] at e1
        cases e1
        rw [e3, abs_createList]
        simp)
    obtain ⟨lp3, e1, e2, e3⟩ := this
    have e4 : removeFirstN 9 lp = .ok (nineItems, lp3) := e1
    rw [h2] at e4
    cases e4
    have := e2.abs_length
    rw [e3] at this
    exact this.symm
  have hn : numItems lp ≠ 0 := by
    obtain ⟨lp9, e1, e2, e3⟩ := addLastAll_inv nineItems (createList : LIST Nat)
      (Or.inl rfl) (by decide)
    rw [h1] at e1
    cases e1
    have := e2.abs_length
    rw [e3, abs_createList] at this
    intro h0
    rw [show lp.count = 0 from h0] at this
    simp [nineItems] at this
  exact ⟨lp, lp2, h1, h2, (remove_fails_iff_empty lp2 hr2).1.mpr hz,
    (remove_fails_iff_empty lp2 hr2).2.1.mpr hz,
    ((remove_fails_iff_empty lp hr1).2.2.2 hn).1, ((remove_fails_iff_empty lp hr1).2.2.2 hn).2⟩

theorem getItem_out_of_range (lp : LIST α) (index : Int)
    (h : ¬ (0 ≤ index ∧ index < numItems lp)) : getItem lp index = .error .assertion := by
  have h2 : ¬ (0 ≤ index ∧ index < lp.count) := h
  simp only [getItem, h2, not_false_eq_true, if_true]

/-- C11 (code): with the single element 1, `getItem` at the indices 1 and -1 fails on
its assertion, but `setItem` at index 1 (the size) returns normally with the
state unchanged; and after `addLast` of 1 and 2 and one `removeFirst`, `setItem`
at index -1 returns normally and has written slot 0 of the head node. `setItem`
asserts nothing about `index`. -/
theorem setItem_out_of_range_not_rejected :
    (∃ lp, addLastAll (createList : LIST Nat) [Ptr.item 1] = .ok lp ∧ numItems lp = 1 ∧
      getItem lp 1 = .error .assertion ∧ getItem lp (-1) = .error .assertion ∧
      setItem lp 1 (Ptr.item 2) = .ok lp) ∧
    (∃ lp0 v lp1 lp2, addLastAll (createList : LIST Nat) [Ptr.item 1, Ptr.item 2] = .ok lp0 ∧
      removeFirst lp0 = .ok (v, lp1) ∧ numItems lp1 = 1 ∧
      setItem lp1 (-1) (Ptr.item 42) = .ok lp2 ∧
      (nodeAt lp1 lp1.head).bind (fun n => n.data) =
        some (Ptr.null :: Ptr.item 2 :: List.replicate 6 Ptr.junk) ∧
      (nodeAt lp2 lp2.head).bind (fun n => n.data) =
        some (Ptr.item 42 :: Ptr.item 2 :: List.replicate 6 Ptr.junk)) :=
  ⟨⟨_, rfl, rfl, rfl, rfl, rfl⟩, ⟨_, _, _, _, rfl, rfl, rfl, rfl, rfl, rfl⟩⟩

/-- C12 (null item): on every state and for every index, `addFirst`, `addLast` and
`setItem` called with `NULL` fail on their assertion, the first statement of
each; no successor state is produced. -/
theorem null_item_rejected (lp : LIST α) (index : Int) :
    addFirst lp Ptr.null = .error .assertion ∧ addLast lp Ptr.null = .error .assertion ∧
      setItem lp index Ptr.null = .error .assertion := by
  refine ⟨?_, ?_, ?_⟩
  · simp [addFirst, Ptr.isNull]
  · simp [addLast, Ptr.isNull]
  · simp [setItem, Ptr.isNull]

theorem removeLastN_inv (ws : List (Ptr α)) :
    ∀ (lp : LIST α) (ys : List (Ptr α)), Inv lp → abs lp = ys ++ ws.reverse →
      ∃ lp2, removeLastN ws.length lp = .ok (ws, lp2) ∧ Inv lp2 ∧ abs lp2 = ys := by
  induction ws with
  | nil => intro lp ys h he; exact ⟨lp, rfl, h, by simpa using he⟩
  | cons w ws ih =>
    intro lp ys h he
    have hc : 0 < lp.count := by
      rw [← h.abs_length, he]
      simp
      omega
    obtain ⟨v, lp1, h1, h2, h3⟩ := inv_removeLast h hc
    rw [he, List.reverse_cons, ← List.append_assoc] at h3
    obtain ⟨e1, e2⟩ := List.append_inj' h3 rfl
    simp only [List.cons.injEq, and_true] at e2
    subst e2
    obtain ⟨lp2, h4, h5, h6⟩ := ih lp1 ys h2 e1.symm
    refine ⟨lp2, ?_, h5, h6⟩
    simp only [List.length_cons, removeLastN, h1, h4]

theorem addLast_removeLast_lifo (xs : List (Ptr α)) (hx : ∀ x ∈ xs, x ≠ Ptr.null) :
    ∃ lp lp2, addLastAll (createList : LIST α) xs = .ok lp ∧
      removeLastN xs.length lp = .ok (xs.reverse, lp2) ∧ numItems lp2 = 0 ∧
      ∀ index : Int, getItem lp2 index = .error .assertion := by
  obtain ⟨lp, h1, h2, h3⟩ := addLastAll_inv xs createList (Or.inl rfl) hx
  rw [abs_createList, List.nil_append] at h3
  obtain ⟨lp2, h4, h5, h6⟩ := removeLastN_inv xs.reverse lp [] h2 (by simpa using h3)
  rw [List.length_reverse] at h4
  have hz : numItems lp2 = 0 := by
    have := h5.abs_length
    rw [h6] at this
    exact this.symm
  refine ⟨lp, lp2, h1, h4, hz, ?_⟩
  intro index
  apply getItem_out_of_range
  rw [hz]
  omega

/-- C13 (code): the nine items 1..9 pushed with `addFirst` and popped with nine calls
of `removeFirst` come back as 9, 1, 2, ..., 8, not in reverse push order; the
size is then 0 and `getItem` fails at the index 0. (At the back end the
order is the reverse one: `addLast_removeLast_lifo`.) -/
theorem addFirst_nine_removeFirst_order :
    ∃ lp lp2, addFirstAll (createList : LIST Nat) nineItems = .ok lp ∧
      removeFirstN 9 lp =
        .ok (Ptr.item 9 :: (List.range 8).map (fun i => Ptr.item (i + 1)), lp2) ∧
      numItems lp2 = 0 ∧ getItem lp2 0 = .error .assertion :=
  ⟨_, _, rfl, rfl, rfl, rfl⟩

/-- C14 (scenario): after `addLast` of 1..10 the size is 10, `getItem` returns 1 at
index 0 and 10 at index 9; five calls of `removeFirst` return 1, 2, 3, 4, 5;
then the size is 5 and `getItem` returns 6 at index 0. -/
theorem scenario_ten_addLast_five_removeFirst :
    ∃ lp lp2, addLastAll (createList : LIST Nat) tenItems = .ok lp ∧ numItems lp = 10 ∧
      getItem lp 0 = .ok (Ptr.item 1) ∧ getItem lp 9 = .ok (Ptr.item 10) ∧
      removeFirstN 5 lp =
        .ok ([Ptr.item 1, Ptr.item 2, Ptr.item 3, Ptr.item 4, Ptr.item 5], lp2) ∧
      numItems lp2 = 5 ∧ getItem lp2 0 = .ok (Ptr.item 6) :=
  ⟨_, _, rfl, rfl, rfl, rfl, rfl, rfl, rfl⟩

/-- C15 (code): after `addFirst` of 1, 2 and 3, the first `removeLast` returns 3 and
the second returns 2, not 1 and 2; the size is then 1. -/
theorem addFirst_three_removeLast_values :
    ∃ lp lp2, addFirstAll (createList : LIST Nat) [Ptr.item 1, Ptr.item 2, Ptr.item 3] = .ok lp ∧
      removeLastN 2 lp = .ok ([Ptr.item 3, Ptr.item 2], lp2) ∧ numItems lp2 = 1 :=
  ⟨_, _, rfl, rfl, rfl⟩

theorem toNodes_length (p : Option Addr) (cs : List (Addr × Chunk α)) :
    (toNodes p cs).length = cs.length := by
  induction cs generalizing p with
  | nil => rfl
  | cons x xs ih =>
    obtain ⟨a, c⟩ := x
    simp [toNodes, ih]

theorem toNodes_getElem? (cs : List (Addr × Chunk α)) :
    ∀ (p : Option Addr) (i : Nat) (x : Addr × NODE α), (toNodes p cs)[i]? = some x →
      ∃ y, cs[i]? = some y ∧ x.1 = y.1 ∧ x.2.first = some y.2.first ∧
        x.2.count = some y.2.count ∧ x.2.length = some 8 := by
  induction cs with
  | nil => intro p i x h; simp [toNodes] at h
  | cons z zs ih =>
    obtain ⟨a, c⟩ := z
    intro p i x h
    cases i with
    | zero =>
      simp only [toNodes, List.getElem?_cons_zero, Option.some.injEq] at h
      subst h
      exact ⟨(a, c), List.getElem?_cons_zero, rfl, rfl, rfl, rfl⟩
    | succ i =>
      simp only [toNodes, List.getElem?_cons_succ] at h
      obtain ⟨y, h1, h2⟩ := ih (some a) i x h
      exact ⟨y, by simpa using h1, h2⟩

theorem toNodes_mem {cs : List (Addr × Chunk α)} {p : Option Addr} {x : Addr × NODE α}
    (h : x ∈ toNodes p cs) :
    ∃ y ∈ cs, x.1 = y.1 ∧ x.2.first = some y.2.first ∧ x.2.count = some y.2.count ∧
      x.2.length = some 8 := by
  obtain ⟨i, hi⟩ := List.getElem?_of_mem h
  obtain ⟨y, h1, h2⟩ := toNodes_getElem? cs p i x hi
  exact ⟨y, List.getElem?_mem h1, h2⟩

theorem toNodes_sum (p : Option Addr) (cs : List (Addr × Chunk α)) :
    ((toNodes p cs).map (fun x => x.2.count.getD 0)).sum = (cs.map (fun x => x.2.count)).sum := by
  induction cs generalizing p with
  | nil => rfl
  | cons x xs ih =>
    obtain ⟨a, c⟩ := x
    simp [toNodes, mkNode, ih]

theorem toNodes_fst (p : Option Addr) (cs : List (Addr × Chunk α)) :
    (toNodes p cs).map Prod.fst = cs.map Prod.fst := by
  induction cs generalizing p with
  | nil => rfl
  | cons x xs ih =>
    obtain ⟨a, c⟩ := x
    simp [toNodes, ih]

theorem firstAddr_eq_head? (cs : List (Addr × Chunk α)) :
    firstAddr cs none = (cs.map Prod.fst).head? := by
  cases cs with
  | nil => rfl
  | cons x xs => obtain ⟨a, c⟩ := x; rfl

theorem lastAddr_eq_getLast? (cs : List (Addr × Chunk α)) (p : Option Addr) (hne : cs ≠ []) :
    lastAddr p cs = (cs.map Prod.fst).getLast? := by
  induction cs generalizing p with
  | nil => exact absurd rfl hne
  | cons x xs ih =>
    obtain ⟨a, c⟩ := x
    cases xs with
    | nil => rfl
    | cons y ys =>
      have := ih (some a) (by simp)
      simp only [lastAddr] at this ⊢
      rw [this]
      simp [List.getLast?_cons_cons]

theorem Rep.dataInv {lp : LIST α} {cs : List (Addr × Chunk α)} (h : Rep lp cs) :
    DataInv lp := by
  refine ⟨?_, ?_, ?_⟩
  · rw [h.nodes_eq, toNodes_sum, h.count]
  · intro x hx
    rw [h.nodes_eq] at hx
    obtain ⟨y, hy, _, h2, h3, h4⟩ := toNodes_mem hx
    obtain ⟨o1, o2, o3, o4, _⟩ := h.ok y hy
    exact ⟨h4, y.2.count, y.2.first, h3, o3, o4, h2, o1, o2⟩
  · rw [h.nodes_eq, toNodes_length, h.numNodes]

theorem Rep.nodes_ends {lp : LIST α} {cs : List (Addr × Chunk α)} (h : Rep lp cs) :
    ((nodes lp).map Prod.fst).head? = lp.head ∧ ((nodes lp).map Prod.fst).getLast? = lp.tail := by
  rw [h.nodes_eq, toNodes_fst, h.head, h.tail, firstAddr_eq_head?,
    lastAddr_eq_getLast? cs none h.nonempty]
  exact ⟨rfl, rfl⟩

theorem nodes_createList : nodes (createList : LIST α) =
    [(0, { data := none, next := none, prev := none,
           first := none, count := none, length := none })] := rfl

/-- C16 (counterexample): in the freshly created list `numNodes` is 0 while one node,
the placeholder allocated by `createList`, is linked from the head; its
`length` was never assigned. -/
theorem dataInv_fails_on_createList : ¬ DataInv (createList : LIST Nat) := by
  intro h
  have := h.2.2
  rw [nodes_createList] at this
  exact absurd this (by decide)

/-- C16 (amended): every reachable state is the freshly created list, where `count`
and `numNodes` are 0, or has `numNodes ≥ 1` and satisfies the data-model
invariant, its chain of nodes starting at the head and ending at the tail. -/
theorem dataInv_of_reachable (lp : LIST α) (hr : Reachable lp) :
    (lp = createList ∧ numItems lp = 0 ∧ lp.numNodes = 0) ∨
    (0 < lp.numNodes ∧ DataInv lp ∧ ((nodes lp).map Prod.fst).head? = lp.head ∧
      ((nodes lp).map Prod.fst).getLast? = lp.tail) := by
  rcases reachable_inv hr with rfl | ⟨cs, h⟩
  · exact Or.inl ⟨rfl, rfl, rfl⟩
  · refine Or.inr ⟨?_, h.dataInv, h.nodes_ends⟩
    rw [h.numNodes]
    have := List.length_pos.mpr h.nonempty
    omega

theorem drainedHead_ne_createList : drainedHead ≠ (createList : LIST Nat) := by decide

theorem dataInv_of_reachable_witness :
    Reachable drainedHead ∧ 0 < drainedHead.numNodes ∧ DataInv drainedHead := by
  have hr := reachableQ_reachable drainedHead_reachableQ
  rcases dataInv_of_reachable drainedHead hr with h | h
  · exact absurd h.1 drainedHead_ne_createList
  · exact ⟨hr, h.1, h.2.1⟩

/-- C20 (middle nodes): in every reachable state the chain of nodes starts at the
head and ends at the tail, and every node strictly between the first and the
last has `count == length == 8`. -/
theorem middle_nodes_full (lp : LIST α) (hr : Reachable lp) :
    ((nodes lp).map Prod.fst).head? = lp.head ∧
    ((nodes lp).map Prod.fst).getLast? = lp.tail ∧
    ∀ (i : Nat) (x : Addr × NODE α), (nodes lp)[i]? = some x → 0 < i →
      i + 1 < (nodes lp).length → x.2.count = some 8 ∧ x.2.length = some 8 := by
  rcases reachable_inv hr with rfl | ⟨cs, h⟩
  · refine ⟨rfl, rfl, ?_⟩
    intro i x _ hi hlen
    rw [nodes_createList] at hlen
    simp at hlen
  · refine ⟨h.nodes_ends.1, h.nodes_ends.2, ?_⟩
    intro i x hx hi hlen
    rw [h.nodes_eq] at hx hlen
    rw [toNodes_length] at hlen
    obtain ⟨y, h1, _, _, h3, h4⟩ := toNodes_getElem? cs none i x hx
    have := h.middle i y h1 hi hlen
    rw [h3, this]
    exact ⟨rfl, h4⟩

theorem middle_nodes_full_witness :
    ∃ lp : LIST Nat, addLastAll createList twentyItems = .ok lp ∧ (nodes lp).length = 3 ∧
      ∀ x : Addr × NODE Nat, (nodes lp)[1]? = some x → x.2.count = some 8 ∧ x.2.length = some 8 := by
  obtain ⟨lp, h1, h2⟩ : ∃ lp : LIST Nat, addLastAll createList twentyItems = .ok lp ∧
      (nodes lp).length = 3 := ⟨_, rfl, rfl⟩
  have hr : Reachable lp :=
    reachableQ_reachable (addLastAll_reachableQ _ _ lp ReachableQ.create h1)
  refine ⟨lp, h1, h2, ?_⟩
  intro x hx
  exact (middle_nodes_full lp hr).2.2 1 x hx (by decide) (by omega)

theorem nodeAt_of_cell {lp : LIST α} {a : Addr} {n : NODE α}
    (h : lp.mem[a]? = some (some n)) : nodeAt lp (some a) = some n := by
  simp [nodeAt, h]

theorem Rep.head_node {lp : LIST α} {post : List (Addr × Chunk α)} {a : Addr} {c : Chunk α}
    (h : Rep lp ((a, c) :: post)) :
    nodeAt lp lp.head = some (mkNode c none (firstAddr post none)) := by
  rw [h.head_eq]
  exact nodeAt_of_cell h.head_cell

theorem Rep.tail_node {lp : LIST α} {pre : List (Addr × Chunk α)} {a : Addr} {c : Chunk α}
    (h : Rep lp (pre ++ [(a, c)])) :
    nodeAt lp lp.tail = some (mkNode c (lastAddr none pre) none) := by
  rw [h.tail_eq]
  exact nodeAt_of_cell h.last_cell

theorem Rep.count_head_only {lp : LIST α} {a : Addr} {c : Chunk α} (h : Rep lp [(a, c)]) :
    lp.count = c.count := by
  have := h.count
  simpa using this

/-- C19 (links): in every reachable state with `0 < numItems`, a head node with count
0 has a `next` node with a positive count, a tail node with count 0 has a
`prev` node with a positive count, and `removeFirst` and `removeLast` return
without fault the first and the last element of `abs`. -/
theorem empty_boundary_has_nonempty_neighbour (lp : LIST α) (hr : Reachable lp)
    (hpos : 0 < numItems lp) :
    (∃ h, nodeAt lp lp.head = some h ∧
      (h.count = some 0 → ∃ x c, nodeAt lp h.next = some x ∧ x.count = some c ∧ 0 < c)) ∧
    (∃ t, nodeAt lp lp.tail = some t ∧
      (t.count = some 0 → ∃ x c, nodeAt lp t.prev = some x ∧ x.count = some c ∧ 0 < c)) ∧
    (∃ v lp2, removeFirst lp = .ok (v, lp2) ∧ (abs lp).head? = some v) ∧
    (∃ v lp2, removeLast lp = .ok (v, lp2) ∧ (abs lp).getLast? = some v) := by
  have hinv := reachable_inv hr
  have hc : 0 < lp.count := hpos
  refine ⟨?_, ?_, ?_, ?_⟩
  · rcases hinv with rfl | ⟨cs, h⟩
    · exact absurd hc (lt_irrefl (0 : Int))
    · cases cs with
      | nil => exact absurd rfl h.nonempty
      | cons x rest =>
        obtain ⟨a, c⟩ := x
        refine ⟨_, h.head_node, ?_⟩
        intro h0
        have h0c : c.count = 0 := by simpa [mkNode] using h0
        cases rest with
        | nil =>
          have := h.count_head_only
          omega
        | cons y post =>
          obtain ⟨b, d⟩ := y
          exact ⟨_, d.count, nodeAt_of_cell h.linked.2.1, rfl, h.second_pos h0c hc⟩
  · rcases hinv with rfl | ⟨cs, h⟩
    · exact absurd hc (lt_irrefl (0 : Int))
    · rcases List.eq_nil_or_concat cs with e | ⟨pre, x, e⟩
      · exact absurd e h.nonempty
      · obtain ⟨a, c⟩ := x
        rw [List.concat_eq_append] at e
        subst e
        refine ⟨_, h.tail_node, ?_⟩
        intro h0
        have h0c : c.count = 0 := by simpa [mkNode] using h0
        rcases List.eq_nil_or_concat pre with e | ⟨pre2, y, e⟩
        · subst e
          have h1 : Rep lp [(a, c)] := h
          have := h1.count_head_only
          omega
        · obtain ⟨b, d⟩ := y
          rw [List.concat_eq_append] at e
          subst e
          have h2 : Rep lp (pre2 ++ [(b, d), (a, c)]) := by simpa using h
          have hcell : lp.mem[b]? = some (some (mkNode d (lastAddr none pre2) (some a))) :=
            h2.cell
          refine ⟨mkNode d (lastAddr none pre2) (some a), d.count, ?_, rfl,
            h2.penultimate_pos h0c hc⟩
          show nodeAt lp (lastAddr none (pre2 ++ [(b, d)])) = _
          rw [lastAddr_append]
          exact nodeAt_of_cell hcell
  · obtain ⟨v, lp2, h1, _, h3⟩ := inv_removeFirst hinv hc
    exact ⟨v, lp2, h1, by rw [h3]; rfl⟩
  · obtain ⟨v, lp2, h1, _, h3⟩ := inv_removeLast hinv hc
    exact ⟨v, lp2, h1, by rw [h3]; simp⟩

theorem empty_boundary_has_nonempty_neighbour_witness :
    Reachable drainedHead ∧ 0 < numItems drainedHead ∧
    (∃ h, nodeAt drainedHead drainedHead.head = some h ∧ h.count = some 0 ∧
      ∃ x c, nodeAt drainedHead h.next = some x ∧ x.count = some c ∧ 0 < c) ∧
    (∃ v lp2, removeFirst drainedHead = .ok (v, lp2) ∧ (abs drainedHead).head? = some v) := by
  have hr := reachableQ_reachable drainedHead_reachableQ
  have hpos : 0 < numItems drainedHead := by decide
  obtain ⟨⟨h, h1, h2⟩, _, h3, _⟩ := empty_boundary_has_nonempty_neighbour drainedHead hr hpos
  have h0 : h.count = some 0 := by
    have e : nodeAt drainedHead drainedHead.head =
        some { data := some (List.replicate 8 Ptr.null), next := some 2, prev := none,
               first := some 0, count := some 0, length := some 8 } := rfl
    rw [e] at h1
    cases h1
    rfl
  exact ⟨hr, hpos, ⟨h, h1, h0, h2 h0⟩, h3⟩

/-- C18 (lazy retirement): in every reachable state with `0 < numItems`,
`removeFirst` (resp. `removeLast`) returns, and it lowers `numNodes` by one and
moves the head to `next` of the old head (resp. the tail to `prev` of the old
tail) exactly when that node has count 0 and is not the only node;
otherwise `numNodes`, head and tail are unchanged and the boundary node stays
in place with its count lowered by one, also when the count becomes 0. The
other end never moves, and a single node is never retired. -/
theorem retire_iff_boundary_empty (lp : LIST α) (hr : Reachable lp) (hpos : 0 < numItems lp) :
    (∃ v lp2 h, removeFirst lp = .ok (v, lp2) ∧ nodeAt lp lp.head = some h ∧
      ((lp2.numNodes = lp.numNodes - 1 ∧ lp2.head = h.next) ↔
        (h.count = some 0 ∧ lp.numNodes ≠ 1)) ∧
      (¬ (h.count = some 0 ∧ lp.numNodes ≠ 1) →
        lp2.numNodes = lp.numNodes ∧ lp2.head = lp.head ∧
        ∃ h2 c, nodeAt lp2 lp.head = some h2 ∧ h.count = some c ∧ h2.count = some (c - 1)) ∧
      lp2.tail = lp.tail ∧ (lp.numNodes = 1 → lp2.numNodes = 1)) ∧
    (∃ v lp2 t, removeLast lp = .ok (v, lp2) ∧ nodeAt lp lp.tail = some t ∧
      ((lp2.numNodes = lp.numNodes - 1 ∧ lp2.tail = t.prev) ↔
        (t.count = some 0 ∧ lp.numNodes ≠ 1)) ∧
      (¬ (t.count = some 0 ∧ lp.numNodes ≠ 1) →
        lp2.numNodes = lp.numNodes ∧ lp2.tail = lp.tail ∧
        ∃ t2 c, nodeAt lp2 lp.tail = some t2 ∧ t.count = some c ∧ t2.count = some (c - 1)) ∧
      lp2.head = lp.head ∧ (lp.numNodes = 1 → lp2.numNodes = 1)) := by
  have hinv := reachable_inv hr
  have hc : 0 < lp.count := hpos
  rcases hinv with rfl | ⟨cs, h⟩
  · exact absurd hc (lt_irrefl (0 : Int))
  refine ⟨?_, ?_⟩
  · cases cs with
    | nil => exact absurd rfl h.nonempty
    | cons x rest =>
      obtain ⟨a, c⟩ := x
      have hok : ChunkOK c := h.ok (a, c) (by simp)
      by_cases h0 : c.count = 0
      · cases rest with
        | nil =>
          have := h.count_head_only
          omega
        | cons y post =>
          obtain ⟨b, d⟩ := y
          obtain ⟨lp2, h1, h2⟩ := removeFirst_retire h h0 hc
          have hn1 : lp.numNodes = (post.length : Int) + 2 := by
            have e := h.numNodes
            simp only [List.length_cons, Nat.cast_add, Nat.cast_one] at e
            omega
          have hn2 : lp2.numNodes = (post.length : Int) + 1 := by
            rw [h2.numNodes]
            simp
          have hh2 : lp2.head = some b := h2.head_eq
          have ht : lp2.tail = lp.tail := by
            rw [h2.tail, h.tail]
            rfl
          refine ⟨_, lp2, _, h1, h.head_node, ?_, ?_, ht, ?_⟩
          · constructor
            · intro _
              exact ⟨by simp [mkNode, h0], by omega⟩
            · intro _
              exact ⟨by omega, by rw [hh2]; rfl⟩
          · intro hne
            exact absurd ⟨by simp [mkNode, h0], by omega⟩ hne
          · intro h1n
            omega
      · have hpc : 0 < c.count := lt_of_le_of_ne hok.2.2.1 (Ne.symm h0)
        obtain ⟨lp2, h1, h2⟩ := removeFirst_keep h hpc
        have hn2 : lp2.numNodes = lp.numNodes := by
          rw [h2.numNodes, h.numNodes]
          simp
        have hh2 : lp2.head = lp.head := by rw [h2.head_eq, h.head_eq]
        have ht : lp2.tail = lp.tail := by
          rw [h2.tail, h.tail]
          rfl
        refine ⟨_, lp2, _, h1, h.head_node, ?_, ?_, ht, ?_⟩
        · constructor
          · intro hl
            omega
          · intro hrr
            have : c.count = 0 := by simpa [mkNode] using hrr.1
            exact absurd this h0
        · intro _
          refine ⟨hn2, hh2, mkNode (popFrontC c) none (firstAddr rest none), c.count, ?_,
            rfl, rfl⟩
          rw [← hh2]
          exact h2.head_node
        · intro h1n
          omega
  · rcases List.eq_nil_or_concat cs with e | ⟨pre, x, e⟩
    · exact absurd e h.nonempty
    · obtain ⟨a, c⟩ := x
      rw [List.concat_eq_append] at e
      subst e
      have hok : ChunkOK c := h.ok (a, c) (by simp)
      by_cases h0 : c.count = 0
      · rcases List.eq_nil_or_concat pre with e | ⟨pre2, y, e⟩
        · subst e
          have h1 : Rep lp [(a, c)] := h
          have := h1.count_head_only
          omega
        · obtain ⟨b, d⟩ := y
          rw [List.concat_eq_append] at e
          subst e
          have hb : Rep lp (pre2 ++ [(b, d), (a, c)]) := by simpa using h
          obtain ⟨lp2, h1, h2⟩ := removeLast_retire hb h0 hc
          have hn1 : lp.numNodes = (pre2.length : Int) + 2 := by
            have e := hb.numNodes
            simp only [List.length_append, List.length_cons, List.length_nil, Nat.cast_add,
              Nat.cast_one] at e
            omega
          have hn2 : lp2.numNodes = (pre2.length : Int) + 1 := by
            rw [h2.numNodes]
            simp
          have ht2 : lp2.tail = some b := h2.tail_eq
          have hh : lp2.head = lp.head := by
            rw [h2.head, hb.head, firstAddr_append, firstAddr_append]
            rfl
          refine ⟨_, lp2, _, h1, h.tail_node, ?_, ?_, hh, ?_⟩
          · constructor
            · intro _
              exact ⟨by simp [mkNode, h0], by omega⟩
            · intro _
              refine ⟨by omega, ?_⟩
              rw [ht2]
              show some b = lastAddr none (pre2 ++ [(b, d)])
              rw [lastAddr_append]
              rfl
          · intro hne
            exact absurd ⟨by simp [mkNode, h0], by omega⟩ hne
          · intro h1n
            omega
      · have hpc : 0 < c.count := lt_of_le_of_ne hok.2.2.1 (Ne.symm h0)
        obtain ⟨lp2, h1, h2⟩ := removeLast_keep h hpc
        have hn2 : lp2.numNodes = lp.numNodes := by
          rw [h2.numNodes, h.numNodes]
          simp
        have ht2 : lp2.tail = lp.tail := by rw [h2.tail_eq, h.tail_eq]
        have hh : lp2.head = lp.head := by
          rw [h2.head, h.head, firstAddr_append, firstAddr_append]
          rfl
        refine ⟨_, lp2, _, h1, h.tail_node, ?_, ?_, hh, ?_⟩
        · constructor
          · intro hl
            omega
          · intro hrr
            have : c.count = 0 := by simpa [mkNode] using hrr.1
            exact absurd this h0
        · intro _
          refine ⟨hn2, ht2, mkNode (popBackC c) (lastAddr none pre) none, c.count, ?_,
            rfl, rfl⟩
          rw [← ht2]
          exact h2.tail_node
        · intro h1n
          omega

theorem nodeAt_length (lp : LIST α) : nodeAt lp (some lp.mem.length) = none := by
  simp [nodeAt]

theorem nodeAt_set_ne (lp : LIST α) (a : Addr) (v : Option (NODE α)) (n : Int)
    (p : Option Addr) (hp : p ≠ some a) :
    nodeAt { lp with mem := lp.mem.set a v, count := n } p = nodeAt lp p := by
  cases p with
  | none => rfl
  | some b =>
    have hne : a ≠ b := fun e => hp (by rw [e])
    simp [nodeAt, List.getElem?_set_ne hne]

theorem fullAt_mk {lp : LIST α} {a : Addr} {c : Chunk α} {p nx : Option Addr}
    (h : nodeAt lp (some a) = some (mkNode c p nx)) : fullAt lp (some a) ↔ c.count = 8 := by
  constructor
  · rintro ⟨n, k, h1, h2, h3⟩
    rw [h] at h1
    cases h1
    simp only [mkNode, Option.some.injEq] at h2 h3
    omega
  · intro h8
    exact ⟨_, 8, h, by simp [mkNode, h8], rfl⟩

theorem addLast_room_eq {lp : LIST α} {pre : List (Addr × Chunk α)} {a : Addr} {c : Chunk α}
    (h : Rep lp (pre ++ [(a, c)])) (item : Ptr α) (hi : item.isNull = false)
    (hne : c.count ≠ 8) :
    addLast lp item = .ok { lp with
      mem := lp.mem.set a (some (mkNode (pushC c item) (lastAddr none pre) none)),
      count := lp.count + 1 } := by
  have hc : ChunkOK c := h.ok (a, c) (by simp)
  have hlt : c.count < 8 := lt_of_le_of_ne hc.2.2.2.1 hne
  have h1 := putAtEnd_mk lp a c _ _ item h.last_cell hc hlt
  simp [addLast, hi, h.tail_eq, needsNode_mk lp a c _ _ h.numNodes_ne h.last_cell, hne, bind,
    Except.bind, pure, Except.pure, h1]

theorem addFirst_room_eq {lp : LIST α} {post : List (Addr × Chunk α)} {a : Addr} {c : Chunk α}
    (h : Rep lp ((a, c) :: post)) (item : Ptr α) (hi : item.isNull = false)
    (hne : c.count ≠ 8) :
    addFirst lp item = .ok { lp with
      mem := lp.mem.set a (some (mkNode (pushC c item) none (firstAddr post none))),
      count := lp.count + 1 } := by
  have hc : ChunkOK c := h.ok (a, c) (by simp)
  have hlt : c.count < 8 := lt_of_le_of_ne hc.2.2.2.1 hne
  have h1 := putAtEnd_mk lp a c _ _ item h.head_cell hc hlt
  simp [addFirst, hi, h.head_eq, needsNode_mk lp a c _ _ h.numNodes_ne h.head_cell, hne, bind,
    Except.bind, pure, Except.pure, h1]

theorem addLast_effect {lp : LIST α} (hinv : Inv lp) (item : Ptr α) (hi : item ≠ Ptr.null) :
    ∃ lp2, addLast lp item = .ok lp2 ∧
      PushEffect lp lp2 item lp.tail lp2.tail lp.head lp2.head (fun n => n.prev)
        (fun n => n.next) := by
  have hn := isNull_eq_false hi
  rcases hinv with rfl | ⟨cs, h⟩
  · obtain ⟨lp2, h1, h2⟩ := addLast_fresh item hn
    have h2b : Rep lp2 ([] ++ [(1, pushC emptyC item)]) := h2
    have hnum : lp2.numNodes = 1 := by rw [h2.numNodes]; rfl
    have hz : (createList : LIST α).numNodes = 0 := rfl
    refine ⟨lp2, h1, ?_, ?_, ?_⟩
    · rw [hnum, hz]
      exact ⟨fun _ => Or.inl rfl, fun _ => rfl⟩
    · intro _
      rw [h2b.tail_eq]
      refine ⟨rfl, _, nodeAt_of_cell h2b.last_cell, rfl, rfl, rfl, ?_, rfl, ?_, ?_⟩
      · rw [contents_mkNode, contentsC_push_emptyC]
      · intro _
        exact ⟨rfl, h2.head_eq⟩
      · intro hne
        exact absurd hz hne
    · intro hne
      exact absurd (Or.inl hz) hne
  · rcases List.eq_nil_or_concat cs with e | ⟨pre, x, e⟩
    · exact absurd e h.nonempty
    obtain ⟨a, c⟩ := x
    rw [List.concat_eq_append] at e
    subst e
    have hnz := h.numNodes_ne
    have htail := h.tail_eq
    have hfull := fullAt_mk (nodeAt_of_cell h.last_cell)
    rw [htail]
    by_cases h8 : c.count = 8
    · obtain ⟨lp2, h1, h2⟩ := addLast_full h item hn h8
      have h2b : Rep lp2 ((pre ++ [(a, c)]) ++ [(lp.mem.length, pushC emptyC item)]) := by
        simpa using h2
      have h2c : Rep lp2 (pre ++ (a, c) :: [(lp.mem.length, pushC emptyC item)]) := h2
      have hnum : lp2.numNodes = lp.numNodes + 1 := by
        rw [h2b.numNodes, h.numNodes]
        simp only [List.length_append, List.length_cons, List.length_nil, Nat.cast_add,
          Nat.cast_one]
        omega
      refine ⟨lp2, h1, ?_, ?_, ?_⟩
      · exact ⟨fun _ => Or.inr (hfull.mpr h8), fun _ => hnum⟩
      · intro _
        rw [h2b.tail_eq]
        refine ⟨nodeAt_length lp, _, nodeAt_of_cell h2b.last_cell, rfl, rfl, rfl, ?_, rfl, ?_,
          ?_⟩
        · rw [contents_mkNode, contentsC_push_emptyC]
        · intro hz
          exact absurd hz hnz
        · intro _
          refine ⟨?_, ?_, _, nodeAt_of_cell h2c.cell, rfl⟩
          · show lastAddr none (pre ++ [(a, c)]) = some a
            rw [lastAddr_append]
            rfl
          · rw [h2.head, h.head, firstAddr_append, firstAddr_append]
            rfl
      · intro hne
        exact absurd (Or.inr (hfull.mpr h8)) hne
    · have h1 := addLast_room_eq h item hn h8
      obtain ⟨lp2, h1b, h2⟩ := addLast_room h item hn h8
      rw [h1] at h1b
      cases h1b
      refine ⟨_, h1, ?_, ?_, ?_⟩
      · constructor
        · intro e
          have : lp.numNodes = lp.numNodes + 1 := e
          omega
        · rintro (e | e)
          · exact absurd e hnz
          · exact absurd (hfull.mp e) h8
      · rintro (e | e)
        · exact absurd e hnz
        · exact absurd (hfull.mp e) h8
      · intro _
        refine ⟨rfl, rfl, htail, ⟨_, _, c.count, nodeAt_of_cell h.last_cell,
          nodeAt_of_cell h2.last_cell, rfl, rfl, rfl, rfl, rfl, rfl⟩, ?_⟩
        intro p hp
        exact nodeAt_set_ne lp a _ _ p hp

theorem addFirst_effect {lp : LIST α} (hinv : Inv lp) (item : Ptr α) (hi : item ≠ Ptr.null) :
    ∃ lp2, addFirst lp item = .ok lp2 ∧
      PushEffect lp lp2 item lp.head lp2.head lp.tail lp2.tail (fun n => n.next)
        (fun n => n.prev) := by
  have hn := isNull_eq_false hi
  rcases hinv with rfl | ⟨cs, h⟩
  · obtain ⟨lp2, h1, h2⟩ := addFirst_fresh item hn
    have h2b : Rep lp2 ([] ++ [(1, pushC (firstC item) item)]) := h2
    have hnum : lp2.numNodes = 1 := by rw [h2.numNodes]; rfl
    have hz : (createList : LIST α).numNodes = 0 := rfl
    refine ⟨lp2, h1, ?_, ?_, ?_⟩
    · rw [hnum, hz]
      exact ⟨fun _ => Or.inl rfl, fun _ => rfl⟩
    · intro _
      rw [h2.head_eq]
      refine ⟨rfl, _, nodeAt_of_cell h2.head_cell, rfl, rfl, rfl, ?_, rfl, ?_, ?_⟩
      · rw [contents_mkNode, contentsC_push_firstC]
      · intro _
        exact ⟨rfl, h2b.tail_eq⟩
      · intro hne
        exact absurd hz hne
    · intro hne
      exact absurd (Or.inl hz) hne
  · cases cs with
    | nil => exact absurd rfl h.nonempty
    | cons x post =>
      obtain ⟨a, c⟩ := x
      have hnz := h.numNodes_ne
      have hhead := h.head_eq
      have hfull := fullAt_mk (nodeAt_of_cell h.head_cell)
      rw [hhead]
      by_cases h8 : c.count = 8
      · obtain ⟨lp2, h1, h2⟩ := addFirst_full h item hn h8
        have h2c : Rep lp2 ([(lp.mem.length, pushC (firstC item) item)] ++ (a, c) :: post) := h2
        have hnum : lp2.numNodes = lp.numNodes + 1 := by
          rw [h2.numNodes, h.numNodes]
          simp only [List.length_cons, Nat.cast_add, Nat.cast_one]
        refine ⟨lp2, h1, ?_, ?_, ?_⟩
        · exact ⟨fun _ => Or.inr (hfull.mpr h8), fun _ => hnum⟩
        · intro _
          rw [h2.head_eq]
          refine ⟨nodeAt_length lp, _, nodeAt_of_cell h2.head_cell, rfl, rfl, rfl, ?_, rfl, ?_,
            ?_⟩
          · rw [contents_mkNode, contentsC_push_firstC]
          · intro hz
            exact absurd hz hnz
          · intro _
            refine ⟨rfl, ?_, _, nodeAt_of_cell h2c.cell, rfl⟩
            rw [h2.tail, h.tail]
            rfl
        · intro hne
          exact absurd (Or.inr (hfull.mpr h8)) hne
      · have h1 := addFirst_room_eq h item hn h8
        obtain ⟨lp2, h1b, h2⟩ := addFirst_room h item hn h8
        rw [h1] at h1b
        cases h1b
        refine ⟨_, h1, ?_, ?_, ?_⟩
        · constructor
          · intro e
            have : lp.numNodes = lp.numNodes + 1 := e
            omega
          · rintro (e | e)
            · exact absurd e hnz
            · exact absurd (hfull.mp e) h8
        · rintro (e | e)
          · exact absurd e hnz
          · exact absurd (hfull.mp e) h8
        · intro _
          refine ⟨rfl, rfl, hhead, ⟨_, _, c.count, nodeAt_of_cell h.head_cell,
            nodeAt_of_cell h2.head_cell, rfl, rfl, rfl, rfl, rfl, rfl⟩, ?_⟩
          intro p hp
          exact nodeAt_set_ne lp a _ _ p hp

/-- C17 (allocation): in every reachable state and for every non-null item, `addLast`
returns and has the effect `PushEffect` at the tail (inward link `prev`,
outward link `next`), and `addFirst` returns and has the same effect at the
head (inward link `next`, outward link `prev`): `numNodes` grows by one
exactly when it was 0 or the boundary node was full, the added node then
being new, with first slot 0, count 1, the item as its only content, linked
both ways with the old boundary node; otherwise `numNodes`, head and tail
are unchanged and only the count of the boundary node grows, by one. -/
theorem push_allocates_iff_boundary_full (lp : LIST α) (hr : Reachable lp) (item : Ptr α)
    (hi : item ≠ Ptr.null) :
    (∃ lp2, addLast lp item = .ok lp2 ∧
      PushEffect lp lp2 item lp.tail lp2.tail lp.head lp2.head (fun n => n.prev)
        (fun n => n.next)) ∧
    (∃ lp2, addFirst lp item = .ok lp2 ∧
      PushEffect lp lp2 item lp.head lp2.head lp.tail lp2.tail (fun n => n.next)
        (fun n => n.prev)) :=
  ⟨addLast_effect (reachable_inv hr) item hi, addFirst_effect (reachable_inv hr) item hi⟩

theorem push_allocates_iff_boundary_full_witness :
    Reachable drainedHead ∧ Ptr.item 10 ≠ (Ptr.null : Ptr Nat) ∧
    (∃ lp2, addLast drainedHead (Ptr.item 10) = .ok lp2 ∧
      PushEffect drainedHead lp2 (Ptr.item 10) drainedHead.tail lp2.tail drainedHead.head
        lp2.head (fun n => n.prev) (fun n => n.next)) ∧
    (∃ lp2, addFirst drainedHead (Ptr.item 10) = .ok lp2 ∧
      PushEffect drainedHead lp2 (Ptr.item 10) drainedHead.head lp2.head drainedHead.tail
        lp2.tail (fun n => n.next) (fun n => n.prev)) :=
  ⟨reachableQ_reachable drainedHead_reachableQ, by decide,
    push_allocates_iff_boundary_full drainedHead (reachableQ_reachable drainedHead_reachableQ)
      (Ptr.item 10) (by decide)⟩

theorem retire_iff_boundary_empty_witness :
    Reachable drainedHead ∧ 0 < numItems drainedHead ∧
    ∃ v lp2, removeFirst drainedHead = .ok (v, lp2) ∧
      lp2.numNodes = drainedHead.numNodes - 1 ∧ lp2.head = some 2 ∧
      lp2.tail = drainedHead.tail := by
  have hr := reachableQ_reachable drainedHead_reachableQ
  have hpos : 0 < numItems drainedHead := by decide
  obtain ⟨v, lp2, h, e1, e2, e3, _, e5, _⟩ := (retire_iff_boundary_empty drainedHead hr hpos).1
  have e : nodeAt drainedHead drainedHead.head =
      some { data := some (List.replicate 8 Ptr.null), next := some 2, prev := none,
             first := some 0, count := some 0, length := some 8 } := rfl
  rw [e] at e2
  cases e2
  obtain ⟨h1, h2⟩ := e3.mpr ⟨rfl, by decide⟩
  exact ⟨hr, hpos, v, lp2, e1, h1, h2, e5⟩

end UList
